import Mathlib

/-!
Verification of the gobs/cmd interpreter engine (scope stack, block reader,
variable expander, control-flow commands, async admission) against its
natural-language specification.  Definitions are shallow embeddings of the
Go source: `internal/internal.go`, `plugins/controlflow/controlflow.go`,
`plugins/json/json.go` and `cmd.go`.  Go maps are modelled as association
lists, Go slices as lists, and functions that can panic return `Option`
(`none` = panic).
-/

namespace GobsCmd

/-- A variable scope frame: Go `Arguments = map[string]string`
(`internal/internal.go`).  Modelled as an association list; `fget` returns
the first binding, `fset` overwrites every binding of the key (or appends),
`ferase` removes every binding of the key, so the list behaves exactly like
a map. -/
abbrev Frame := List (String × String)

/-- Map read: `m[k]` returning the value and presence bit collapsed to
`Option`. -/
def fget (fr : Frame) (k : String) : Option String :=
  match fr with
  | [] => none
  | (k', v) :: rest => if k' = k then some v else fget rest k

/-- Map write: `m[k] = v`. -/
def fset (fr : Frame) (k v : String) : Frame :=
  match fr with
  | [] => [(k, v)]
  | (k', v') :: rest => if k' = k then (k, v) :: fset rest k v else (k', v') :: fset rest k v

/-- Map delete: `delete(m, k)`. -/
def ferase (fr : Frame) (k : String) : Frame :=
  match fr with
  | [] => []
  | (k', v') :: rest => if k' = k then ferase rest k else (k', v') :: ferase rest k

theorem fget_fset_self (fr : Frame) (k v : String) : fget (fset fr k v) k = some v := by
  induction fr with
  | nil => simp [fget, fset]
  | cons p rest ih =>
    obtain ⟨k', v'⟩ := p
    by_cases h : k' = k <;> simp [fget, fset, h, ih]

theorem fget_fset_other (fr : Frame) (k k' v : String) (h : k' ≠ k) :
    fget (fset fr k v) k' = fget fr k' := by
  induction fr with
  | nil => simp [fget, fset, Ne.symm h]
  | cons p rest ih =>
    obtain ⟨k₀, v₀⟩ := p
    by_cases h₀ : k₀ = k
    · subst h₀
      simp [fget, fset, Ne.symm h, h, ih]
    · by_cases h₁ : k₀ = k'
      · subst h₁
        simp [fget, fset, h₀, h]
      · simp [fget, fset, h₀, h₁, ih]

theorem fget_ferase_self (fr : Frame) (k : String) : fget (ferase fr k) k = none := by
  induction fr with
  | nil => simp [fget, ferase]
  | cons p rest ih =>
    obtain ⟨k₀, v₀⟩ := p
    by_cases h₀ : k₀ = k <;> simp [fget, ferase, h₀, ih]

theorem fget_ferase_other (fr : Frame) (k k' : String) (h : k' ≠ k) :
    fget (ferase fr k) k' = fget fr k' := by
  induction fr with
  | nil => simp [fget, ferase]
  | cons p rest ih =>
    obtain ⟨k₀, v₀⟩ := p
    by_cases h₀ : k₀ = k
    · subst h₀
      simp [fget, ferase, ih, Ne.symm h]
    · by_cases h₁ : k₀ = k'
      · subst h₁
        simp [fget, ferase, h₀]
      · simp [fget, ferase, h₀, h₁, ih]

/-- `strconv.Itoa` on a natural number. -/
def itoa (n : Nat) : String := Nat.repr n

/-- `strings.Join(xs, " ")`. -/
def joinSp (xs : List String) : String := String.intercalate " " xs

/-- The scope stack (`Context.scopes`): index 0 is the global frame, the
last element is the local frame, exactly as in the Go slice. -/
abbrev Scopes := List Frame

/-- Body of `PushScope` (`internal/internal.go:129-147`) building the new
frame: copy `vars`, add positional bindings `i -> args[i]`, and when `args`
is non-nil bind `*` to the joined tail and `#` to the tail length.
Go evaluates `args[1:]` on a non-nil empty slice, which panics with a
slice-bounds violation: that case returns `none`. -/
def makeScope (vars : List (String × String)) (args : Option (List String)) : Option Frame :=
  let s₀ : Frame := vars.foldl (fun fr p => fset fr p.1 p.2) []
  match args with
  | none => some s₀
  | some l =>
    let s₁ := (l.enum.foldl (fun fr p => fset fr (itoa p.1) p.2) s₀)
    match l with
    | [] => none
    | _ :: rest => some (fset (fset s₁ "*" (joinSp rest)) "#" (itoa rest.length))

/-- `PushScope` (`internal/internal.go:129-147`): append the new frame;
`none` models the slice-bounds panic on a non-nil empty `args`. -/
def pushScope (vars : List (String × String)) (args : Option (List String))
    (scopes : Scopes) : Option Scopes :=
  (makeScope vars args).map (fun s => scopes ++ [s])

/-- `PopScope` (`internal/internal.go:152-159`): panics (`none`) when the
stack is empty, otherwise drops the last (local) frame. -/
def popScope (scopes : Scopes) : Option Scopes :=
  match scopes with
  | [] => none
  | s => some s.dropLast

/-- `GetVar` (`internal/internal.go:247-255`): search the frames from the
local one down to the global one. -/
def getVar (scopes : Scopes) (k : String) : Option String :=
  match scopes with
  | [] => none
  | fr :: rest =>
    match getVar rest k with
    | some v => some v
    | none => fget fr k

/-- Scope selector (`internal/internal.go`, `Scope`). -/
inductive GoScope where
  | localS
  | parentS
  | globalS
  | invalidS
deriving DecidableEq

/-- Frame index chosen by `SetVar`/`UnsetVar`/`GetScope`: local is the last
frame, global is index 0, parent is one below local when it exists.  `none`
models the `panic("no scopes")` on an empty stack. -/
def scopeIndex (scopes : Scopes) (sc : GoScope) : Option Nat :=
  match scopes with
  | [] => none
  | _ =>
    match sc with
    | .globalS => some 0
    | .parentS => some (if scopes.length - 1 > 0 then scopes.length - 2 else scopes.length - 1)
    | _ => some (scopes.length - 1)

/-- `SetVar` (`internal/internal.go:186-218`) restricted to string values
(the fmt.Sprintf conversion is identity on strings): assign into the map at
the selected index. -/
def setVar (scopes : Scopes) (k v : String) (sc : GoScope) : Option Scopes :=
  (scopeIndex scopes sc).map (fun i => scopes.set i (fset (scopes.getD i []) k v))

/-- `UnsetVar` (`internal/internal.go:223-242`). -/
def unsetVar (scopes : Scopes) (k : String) (sc : GoScope) : Option Scopes :=
  (scopeIndex scopes sc).map (fun i => scopes.set i (ferase (scopes.getD i []) k))

/-! ### Decimal keys: facts about `strconv.Itoa` (= `Nat.repr`) needed to
reason about the positional-argument keys "1", "2", ... -/

/-- Numeric value of a decimal digit character. -/
def digitVal (c : Char) : Nat := c.toNat - 48

/-- Value of a decimal digit string (most significant first). -/
def valDigits (cs : List Char) : Nat := cs.foldl (fun a c => 10 * a + digitVal c) 0

theorem valDigits_append_one (xs : List Char) (c : Char) :
    valDigits (xs ++ [c]) = 10 * valDigits xs + digitVal c := by
  simp [valDigits, List.foldl_append]

theorem toDigitsCore_shift (f : Nat) : ∀ (n : Nat) (ds : List Char),
    Nat.toDigitsCore 10 f n ds = Nat.toDigitsCore 10 f n [] ++ ds := by
  induction f with
  | zero => intro n ds; simp [Nat.toDigitsCore]
  | succ f ih =>
    intro n ds
    simp only [Nat.toDigitsCore]
    by_cases h : n / 10 = 0
    · simp [h]
    · simp only [h, if_false]
      rw [ih (n / 10) (Nat.digitChar (n % 10) :: ds), ih (n / 10) [Nat.digitChar (n % 10)]]
      simp

theorem toDigitsCore_fuel : ∀ (f₁ f₂ n : Nat), n < f₁ → n < f₂ →
    Nat.toDigitsCore 10 f₁ n [] = Nat.toDigitsCore 10 f₂ n [] := by
  intro f₁
  induction f₁ with
  | zero => intro f₂ n h; omega
  | succ f ih =>
    intro f₂ n h₁ h₂
    cases f₂ with
    | zero => omega
    | succ f₂ =>
      simp only [Nat.toDigitsCore]
      by_cases h : n / 10 = 0
      · simp [h]
      · simp only [h, if_false]
        have hn : 0 < n := by
          rcases Nat.eq_zero_or_pos n with h0 | h0
          · subst h0; simp at h
          · exact h0
        have hlt : n / 10 < n := Nat.div_lt_self hn (by norm_num)
        rw [toDigitsCore_shift f, toDigitsCore_shift f₂]
        rw [ih f₂ (n / 10) (by omega) (by omega)]

/-- The digit list of `n` written in base 10, independent of fuel. -/
theorem toDigits_step (n : Nat) (h : ¬n / 10 = 0) :
    Nat.toDigits 10 n = Nat.toDigits 10 (n / 10) ++ [Nat.digitChar (n % 10)] := by
  have hn : 0 < n := by
    rcases Nat.eq_zero_or_pos n with h0 | h0
    · subst h0; simp at h
    · exact h0
  have hlt : n / 10 < n := Nat.div_lt_self hn (by norm_num)
  have e2 : Nat.toDigitsCore 10 (n + 1) n [] =
      Nat.toDigitsCore 10 n (n / 10) [Nat.digitChar (n % 10)] := by
    simp only [Nat.toDigitsCore]
    rw [if_neg h]
  show Nat.toDigitsCore 10 (n + 1) n [] = _
  rw [e2, toDigitsCore_shift n]
  rw [toDigitsCore_fuel n (n / 10 + 1) (n / 10) (by omega) (by omega)]
  rfl

theorem toDigits_small (n : Nat) (h : n / 10 = 0) :
    Nat.toDigits 10 n = [Nat.digitChar (n % 10)] := by
  simp [Nat.toDigits, Nat.toDigitsCore, h]

theorem digitVal_digitChar (d : Nat) (h : d < 10) : digitVal (Nat.digitChar d) = d := by
  interval_cases d <;> decide

theorem isDigit_digitChar (d : Nat) (h : d < 10) : (Nat.digitChar d).isDigit = true := by
  interval_cases d <;> decide

theorem valDigits_toDigits (n : Nat) : valDigits (Nat.toDigits 10 n) = n := by
  induction n using Nat.strong_induction_on with
  | _ n ih =>
    by_cases h : n / 10 = 0
    · rw [toDigits_small n h]
      have : n % 10 = n := by omega
      simp [valDigits, digitVal_digitChar (n % 10) (Nat.mod_lt _ (by norm_num))]
      omega
    · have hn : 0 < n := by
        rcases Nat.eq_zero_or_pos n with h0 | h0
        · subst h0; simp at h
        · exact h0
      rw [toDigits_step n h, valDigits_append_one]
      rw [ih (n / 10) (Nat.div_lt_self hn (by norm_num))]
      rw [digitVal_digitChar (n % 10) (Nat.mod_lt _ (by norm_num))]
      omega

theorem toDigits_all_digits (n : Nat) : ∀ c ∈ Nat.toDigits 10 n, c.isDigit = true := by
  induction n using Nat.strong_induction_on with
  | _ n ih =>
    by_cases h : n / 10 = 0
    · rw [toDigits_small n h]
      intro c hc
      simp at hc
      subst hc
      exact isDigit_digitChar _ (Nat.mod_lt _ (by norm_num))
    · have hn : 0 < n := by
        rcases Nat.eq_zero_or_pos n with h0 | h0
        · subst h0; simp at h
        · exact h0
      rw [toDigits_step n h]
      intro c hc
      rcases List.mem_append.mp hc with hc | hc
      · exact ih (n / 10) (Nat.div_lt_self hn (by norm_num)) c hc
      · simp at hc
        subst hc
        exact isDigit_digitChar _ (Nat.mod_lt _ (by norm_num))

theorem itoa_data (n : Nat) : (itoa n).data = Nat.toDigits 10 n := rfl

theorem itoa_inj (m n : Nat) (h : itoa m = itoa n) : m = n := by
  have hd : Nat.toDigits 10 m = Nat.toDigits 10 n := by
    have := congrArg String.data h
    simpa [itoa_data] using this
  have := congrArg valDigits hd
  rwa [valDigits_toDigits, valDigits_toDigits] at this

theorem itoa_eq_iff (m n : Nat) : itoa m = itoa n ↔ m = n :=
  ⟨itoa_inj m n, fun h => by rw [h]⟩

theorem itoa_ne_of_no_digit (n : Nat) (s : String) (c : Char) (hc : c ∈ s.data)
    (hd : c.isDigit = false) : itoa n ≠ s := by
  intro h
  have : c ∈ (itoa n).data := by rw [h]; exact hc
  rw [itoa_data] at this
  have := toDigits_all_digits n c this
  rw [hd] at this
  cases this

theorem itoa_ne_hash (n : Nat) : itoa n ≠ "#" :=
  itoa_ne_of_no_digit n "#" '#' (by decide) (by decide)

theorem itoa_ne_star (n : Nat) : itoa n ≠ "*" :=
  itoa_ne_of_no_digit n "*" '*' (by decide) (by decide)

/-- `strconv.Atoi`, with the error result collapsed to 0 (the callers in
`ShiftArgs` and `command_shift` discard the error, leaving the zero value). -/
def atoiInt (s : String) : Int :=
  match s.data with
  | [] => 0
  | c :: rest =>
    if c = '-' then
      (if rest ≠ [] ∧ rest.all (·.isDigit) then -(valDigits rest : Int) else 0)
    else if c = '+' then
      (if rest ≠ [] ∧ rest.all (·.isDigit) then (valDigits rest : Int) else 0)
    else if (c :: rest).all (·.isDigit) then (valDigits (c :: rest) : Int) else 0

theorem toDigits_ne_nil (n : Nat) : Nat.toDigits 10 n ≠ [] := by
  by_cases h : n / 10 = 0
  · rw [toDigits_small n h]; simp
  · rw [toDigits_step n h]; simp

theorem toDigits_head_digit (n : Nat) :
    ∀ c cs, Nat.toDigits 10 n = c :: cs → c ≠ '-' ∧ c ≠ '+' := by
  intro c cs h
  have hc : c ∈ Nat.toDigits 10 n := by rw [h]; simp
  have := toDigits_all_digits n c hc
  constructor <;> rintro rfl <;> simp [Char.isDigit] at this

theorem atoiInt_itoa (n : Nat) : atoiInt (itoa n) = n := by
  have hd : (itoa n).data = Nat.toDigits 10 n := itoa_data n
  rcases hh : Nat.toDigits 10 n with _ | ⟨c, cs⟩
  · exact absurd hh (toDigits_ne_nil n)
  · have hc := toDigits_head_digit n c cs hh
    have hall : (c :: cs).all (·.isDigit) = true := by
      rw [← hh]
      simp only [List.all_eq_true]
      intro x hx
      exact toDigits_all_digits n x hx
    have hval : valDigits (c :: cs) = n := by
      rw [← hh, valDigits_toDigits]
    rcases hc with ⟨hm, hp⟩
    unfold atoiInt
    rw [hd, hh]
    simp only [hm, hp, if_false, hall, if_true]
    exact_mod_cast hval

/-! ### ShiftArgs (`internal/internal.go:284-311`) -/

/-- Loop body of `ShiftArgs`: `for i := 1; i < nargs; i++` renumbering the
positional keys.  `fuel` is `nargs - i`, so `fuel = 0` exactly when the Go
condition `i < nargs` fails; the missing-key map read yields the zero value
`""` as in Go. -/
def shiftLoop (nargs n : Nat) : Nat → Nat → Frame → List String → Frame × List String
  | 0, _, fr, args => (fr, args)
  | fuel + 1, i, fr, args =>
    if i + n > nargs then
      shiftLoop nargs n fuel (i + 1) (ferase fr (itoa i)) args
    else
      shiftLoop nargs n fuel (i + 1) (fset fr (itoa i) ((fget fr (itoa (i + n))).getD ""))
        (args ++ [(fget fr (itoa (i + n))).getD ""])

/-- `ShiftArgs` (`internal/internal.go:284-311`) on the local frame: when
`#` is absent the frame is untouched; when the requested shift exceeds the
argument count the frame is untouched; otherwise the positional keys are
renumbered and `*`/`#` recomputed from the collected remaining arguments.
The shift amount is a natural number (`command_shift` parses it from the
command line; the nonnegative case is the one the claims quantify over). -/
def shiftArgs (fr : Frame) (n : Nat) : Frame :=
  match fget fr "#" with
  | none => fr
  | some sharp =>
    if (n : Int) > atoiInt sharp then fr
    else
      let nargs := (atoiInt sharp).toNat
      let p := shiftLoop nargs n (nargs - 1) 1 fr []
      fset (fset p.1 "*" (joinSp p.2)) "#" (itoa p.2.length)

/-! ### Line reading and the block reader (`internal/internal.go:416-544`) -/

/-- `strings.HasPrefix` (char-list based so that proofs can evaluate it). -/
def strStarts (s p : String) : Bool := p.data.isPrefixOf s.data

/-- `strings.HasSuffix` (char-list based so that proofs can evaluate it). -/
def strEnds (s p : String) : Bool := p.data.reverse.isPrefixOf s.data.reverse

/-- `strings.TrimSpace` (char-list based; the sources only use ASCII
whitespace). -/
def trimS (s : String) : String :=
  ⟨((s.data.dropWhile Char.isWhitespace).reverse.dropWhile Char.isWhitespace).reverse⟩

/-- `strings.TrimPrefix`: drop `p` once when it is a leading pattern. -/
def dropPreOnce (s p : String) : String :=
  if strStarts s p then ⟨s.data.drop p.data.length⟩ else s

/-- `strings.TrimRight(s, "\\")`: drop every trailing backslash. -/
def dropTrailingBS (s : String) : String := ⟨(s.data.reverse.dropWhile (fun c => c = '\\')).reverse⟩

/-- `strings.Replace(s, "\\$", "$", -1)`: unescape protected variable
markers in a one-line body. -/
def unescDollar (cs : List Char) : List Char :=
  match cs with
  | [] => []
  | '\\' :: '$' :: rest => '$' :: unescDollar rest
  | c :: rest => c :: unescDollar rest

/-- The continuation-strip loop of `ReadLine` once the reader hits
end-of-input: Go keeps stripping trailing backslashes (and surrounding
space) until none remains.  Each round removes at least one character, so
`s.length` rounds always suffice; the caller passes that fuel. -/
def stripContLoop : Nat → String → String
  | 0, line => line
  | f + 1, line =>
    if strEnds line "\\" then stripContLoop f (trimS (dropTrailingBS line)) else line

/-- The continuation-merge loop of `ReadLine`
(`internal/internal.go:440-451`): while the line ends with a backslash,
strip it and join the next line with a single space; a read error (here:
end of input) breaks the loop keeping the stripped line. -/
def mergeCont : String → List String → String × List String
  | line, [] =>
    (stripContLoop (line.data.length + 1) line, [])
  | line, l :: rest =>
    if strEnds line "\\" then
      mergeCont (trimS (dropTrailingBS line) ++ " " ++ trimS l) rest
    else (line, l :: rest)

/-- `ReadLine` (`internal/internal.go:429-454`) over an in-memory line list
(`ScanLines`): `none` is the `io.EOF` error. -/
def readLine (ls : List String) : Option (String × List String) :=
  match ls with
  | [] => none
  | l :: rest => some (mergeCont (trimS l) rest)

theorem mergeCont_snd_length : ∀ (line : String) (ls : List String),
    (mergeCont line ls).2.length ≤ ls.length := by
  intro line ls
  induction ls generalizing line with
  | nil => simp [mergeCont]
  | cons l rest ih =>
    by_cases h : strEnds line "\\"
    · simp only [mergeCont, h, if_true]
      exact le_trans (ih _) (by simp)
    · simp [mergeCont, h]

theorem readLine_rest_lt (ls : List String) (l : String) (rest : List String)
    (h : readLine ls = some (l, rest)) : rest.length < ls.length := by
  cases ls with
  | nil => simp [readLine] at h
  | cons a tl =>
    simp only [readLine, Option.some_inj] at h
    have : rest = (mergeCont (trimS a) tl).2 := by rw [h]
    rw [this]
    exact Nat.lt_succ_of_le (mergeCont_snd_length _ _)

/-- The block-collection loop of `ReadBlock`
(`internal/internal.go:471-495`): read logical lines tracking brace depth;
blank lines and `#` comment lines are appended to the block unchanged; a
line starting with `}` decrements the depth and closes the block at depth
zero; a line ending with `{` increments it.  Returns the collected block,
the closing line and the unread remainder. -/
def readBlockLoop (opened : Nat) (acc : List String) (ls : List String) :
    Except String (List String × String × List String) :=
  match h : readLine ls with
  | none => .error "unexpected end of input"
  | some (l, rest) =>
    let line := trimS l
    if strStarts line "#" ∨ line = "" then readBlockLoop opened (acc ++ [line]) rest
    else
      if strStarts line "\x7d" ∧ opened - 1 = 0 then .ok (acc, line, rest)
      else
        readBlockLoop
          ((if strStarts line "\x7d" then opened - 1 else opened) +
            (if strEnds line "\x7b" then 1 else 0))
          (acc ++ [line]) rest
termination_by ls.length
decreasing_by
  all_goals exact readLine_rest_lt ls l rest h

/-- `ReadBlock` (`internal/internal.go:456-544`): a header not ending in an
opening brace is a one-line body (with protected `\$` markers unescaped); a
header other than exactly `{` is a syntax error; otherwise collect a
brace-balanced block, and when the remainder of the closing line is not
blank/comment, demand `next` followed by `{` and collect a second block. -/
def readBlock (body next : String) (ls : List String) :
    Except String (List String × Option (List String) × List String) :=
  if ¬ strEnds body "\x7b" then .ok ([⟨unescDollar body.data⟩], none, ls)
  else if body ≠ "\x7b" then .error "unexpected body and block"
  else
    match readBlockLoop 1 [] ls with
    | .error e => .error e
    | .ok (block1, closing, rest) =>
      let line := trimS (dropPreOnce closing "\x7d")
      if strStarts line "#" ∨ line = "" then .ok (block1, none, rest)
      else if next ≠ "" ∧ ¬ strStarts line next then .error "expected next keyword"
      else
        let line2 := trimS ⟨line.data.drop next.data.length⟩
        if line2 ≠ "\x7b" then .error "expected brace"
        else
          match readBlockLoop 1 [] rest with
          | .error e => .error e
          | .ok (block2, _, rest2) => .ok (block1, some block2, rest2)

/-! ### The conditional evaluator
(`plugins/controlflow/controlflow.go:376-547`) -/

/-- `strconv.ParseBool`: the accepted literals, `none` for anything else. -/
def parseBool (s : String) : Option Bool :=
  if s = "1" ∨ s = "t" ∨ s = "T" ∨ s = "TRUE" ∨ s = "true" ∨ s = "True" then some true
  else if s = "0" ∨ s = "f" ∨ s = "F" ∨ s = "FALSE" ∨ s = "false" ∨ s = "False" then some false
  else none

/-- `boolValue` (controlflow.go:401-407): ParseBool result, falling back to
a non-empty check. -/
def boolValue (v : String) : Bool :=
  match parseBool v with
  | some b => b
  | none => v ≠ ""

/-- `strings.Compare` collapsed to its sign. -/
def cmpStr (a b : String) : Int :=
  if a = b then 0 else if a < b then -1 else 1

/-- `compare` (controlflow.go:376-399): at most two arguments (exactly two
in numeric mode), missing ones default to the empty string; numeric mode
parses both (parse errors yield 0) and subtracts. -/
def compareArgs (args : List String) (num : Bool) : Except String Int :=
  if args.length > 2 ∨ (num ∧ args.length ≠ 2) then
    .error ("expected 2 arguments, got " ++ toString args.length)
  else
    let arg1 := args.getD 0 ""
    let arg2 := args.getD 1 ""
    if num then .ok (atoiInt arg1 - atoiInt arg2)
    else .ok (cmpStr arg1 arg2)

/-- `strings.Contains` (char-list based). -/
def strContains (s sub : String) : Bool :=
  (List.range (s.data.length + 1)).any (fun i => sub.data.isPrefixOf (s.data.drop i))

/-- The operator switch of `evalConditional` (controlflow.go:423-539),
applied to the already-tokenized condition: operator and argument list.
Each arm mirrors the corresponding `case`; note that `startswith`,
`endswith` and `contains` have no arm for three or more arguments, so Go's
zero-valued `res`/`err` make that an `ok false`. -/
def evalCondOp (cond : String) (args : List String) : Except String Bool :=
  match cond, args with
  | "z", [] => .ok true
  | "z", [a] => .ok (a.data.length == 0)
  | "z", args => .error ("expected 1 argument, got " ++ toString args.length)
  | "n", [] => .ok false
  | "n", [a] => .ok (a.data.length != 0)
  | "n", _ => .ok true
  | "t", [] => .ok false
  | "t", [a] => .ok (boolValue a)
  | "t", _ => .ok true
  | "f", [] => .ok true
  | "f", [a] => .ok (!boolValue a)
  | "f", _ => .ok false
  | "eq", args => (compareArgs args false).map (fun c => c == 0)
  | "ne", args => (compareArgs args false).map (fun c => c != 0)
  | "gt", args => (compareArgs args false).map (fun c => decide (c > 0))
  | "gte", args => (compareArgs args false).map (fun c => decide (c ≥ 0))
  | "lt", args => (compareArgs args false).map (fun c => decide (c < 0))
  | "lte", args => (compareArgs args false).map (fun c => decide (c ≤ 0))
  | "eq#", args => (compareArgs args true).map (fun c => c == 0)
  | "ne#", args => (compareArgs args true).map (fun c => c != 0)
  | "gt#", args => (compareArgs args true).map (fun c => decide (c > 0))
  | "gte#", args => (compareArgs args true).map (fun c => decide (c ≥ 0))
  | "lt#", args => (compareArgs args true).map (fun c => decide (c < 0))
  | "lte#", args => (compareArgs args true).map (fun c => decide (c ≤ 0))
  | "startswith", [] => .error "expected 2 argument, got 0"
  | "startswith", [_] => .ok false
  | "startswith", [a, b] => .ok (strStarts b a)
  | "startswith", _ => .ok false
  | "endswith", [] => .error "expected 2 argument, got 0"
  | "endswith", [_] => .ok false
  | "endswith", [a, b] => .ok (strEnds b a)
  | "endswith", _ => .ok false
  | "contains", [] => .error "expected 2 argument, got 0"
  | "contains", [_] => .ok false
  | "contains", [a, b] => .ok (strContains b a)
  | "contains", _ => .ok false
  | c, _ => .error ("invalid condition: " ++ c)

/-- Whitespace tokenizer over characters, accumulating the current word
reversed. -/
def wordsAux : List Char → List Char → List (List Char)
  | [], acc => if acc.isEmpty then [] else [acc.reverse]
  | c :: rest, acc =>
    if c.isWhitespace then
      (if acc.isEmpty then wordsAux rest [] else acc.reverse :: wordsAux rest [])
    else wordsAux rest (c :: acc)

/-- Model of `args.GetArgs` from the external github.com/gobs/args
tokenizer, for inputs without quotes or brackets (the only forms the
conditional arguments of the claims use): split on whitespace runs. -/
def getArgs (s : String) : List String :=
  (wordsAux s.data []).map (fun cs => ⟨cs⟩)

/-- `evalConditional` (controlflow.go:409-547): a parenthesized condition
is tokenized and dispatched on its operator; otherwise the bare line is a
truthiness test (empty or `"0"` is false). -/
def evalConditional (line : String) : Except String Bool :=
  if strStarts line "(" ∧ strEnds line ")" then
    let inner : String := ⟨(line.data.drop 1).dropLast⟩
    match getArgs inner with
    | [] => .error ("invalid condition: " ++ inner)
    | cond :: rest => evalCondOp cond rest
  else if line.data.length = 0 ∨ line = "0" then .ok false
  else .ok true

/-! ### `expr substr` (`plugins/controlflow/controlflow.go:687-736`) -/

/-- Start-index computation of the `substr` case (controlflow.go:710-717):
negative start counts from the end, then clamp into `[0, len]`. -/
def goStartIdx (a len : Int) : Int :=
  let st0 := if a < 0 then len + a else a
  if st0 < 0 then 0 else if st0 > len then len else st0

/-- End-index computation of the `substr` case (controlflow.go:720-734):
an empty end means `len`; a negative end is rebased as `start + len + end`
(note: offset by `start`, not plain `len + end`); then clamp into
`[start, len]`. -/
def goEndIdx (st : Int) (b : Option Int) (len : Int) : Int :=
  let e0 := match b with | none => len | some bv => bv
  let e1 := if e0 < 0 then st + len + e0 else e0
  if e1 < st then st else if e1 > len then len else e1

/-- The `substr` operation on already-parsed indices: `line[start:end]`
after the computations above.  `b = none` is the `a:` form with an empty
end. -/
def substrGo (a : Int) (b : Option Int) (s : String) : String :=
  let len : Int := s.data.length
  let st := goStartIdx a len
  let e := goEndIdx st b len
  ⟨(s.data.drop st.toNat).take (e - st).toNat⟩

/-- Modelled from the spec: Python-style slicing `s[a:b]` — a negative
index denotes `len+index` and indices are clamped to the bounds of `s`.
This is the comparison point for the refinement claim about `substr`. -/
def pySlice (a : Int) (b : Option Int) (s : String) : String :=
  let len : Int := s.data.length
  let st := if a < 0 then max 0 (len + a) else min a len
  let e := match b with
    | none => len
    | some bv => if bv < 0 then max 0 (len + bv) else min bv len
  ⟨(s.data.drop st.toNat).take (e - st).toNat⟩

/-! ### The variable expander
(`plugins/controlflow/controlflow.go:300-330`, regex `reArg` at line 98) -/

/-- `\w`: ASCII word character. -/
def isWordChar (c : Char) : Bool := c.isAlphanum || c = '_'

/-- Number of `$` characters (what each rescan pass can still consume). -/
def dollars (cs : List Char) : Nat := cs.count '$'

/-- `strings.Replace(line, "$$", "💲", -1)`: protect the literal-dollar
escape before scanning (controlflow.go:301). -/
def protectDollars : List Char → List Char
  | [] => []
  | '$' :: '$' :: rest => '💲' :: protectDollars rest
  | c :: rest => c :: protectDollars rest

/-- `strings.Replace(line, "💲", "$", -1)`: restore after the loop
(controlflow.go:328). -/
def restoreDollars : List Char → List Char
  | [] => []
  | c :: rest => (if c = '💲' then '$' else c) :: restoreDollars rest

/-- The bracketed `$(*)` / `$(#)` alternative of `reArg` (tried last). -/
def parenSpecialTok (cs : List Char) : Option (String × List Char) :=
  match cs with
  | '(' :: x :: ')' :: rest => if x = '*' ∨ x = '#' then some (⟨[x]⟩, rest) else none
  | _ => none

/-- One match attempt of `reArg` at a `$` (the input is the text after the
`$`): the alternatives `\w+`, `\(\w+\)`, `\(env.\w+\)`, `[*#]`, `\([*#]\)`
in the regex's leftmost-first order.  Returns the argument name after the
`TrimLeft(s, "$(")`/`TrimRight(s, ")")` cleanup of controlflow.go:311-312,
and the unconsumed remainder. -/
def tryTokM (cs : List Char) : Option (String × List Char) :=
  if (cs.takeWhile isWordChar).length ≠ 0 then
    some (⟨cs.takeWhile isWordChar⟩, cs.drop (cs.takeWhile isWordChar).length)
  else
    match cs with
    | '(' :: rest =>
      if (rest.takeWhile isWordChar).length ≠ 0 ∧
          (rest.drop (rest.takeWhile isWordChar).length).head? = some ')' then
        some (⟨rest.takeWhile isWordChar⟩, cs.drop ((rest.takeWhile isWordChar).length + 2))
      else
        match rest with
        | 'e' :: 'n' :: 'v' :: c :: rest2 =>
          if (rest2.takeWhile isWordChar).length ≠ 0 ∧
              (rest2.drop (rest2.takeWhile isWordChar).length).head? = some ')' then
            some (⟨'e' :: 'n' :: 'v' :: c :: rest2.takeWhile isWordChar⟩,
              cs.drop ((rest2.takeWhile isWordChar).length + 6))
          else parenSpecialTok cs
        | _ => parenSpecialTok cs
    | '*' :: rest => some ("*", rest)
    | '#' :: rest => some ("#", rest)
    | _ => none

theorem dollars_drop (l : List Char) (k : Nat) : dollars (l.drop k) ≤ dollars l := by
  conv_rhs => rw [← List.take_append_drop k l]
  unfold dollars
  rw [List.count_append]
  omega

theorem parenSpecialTok_le (cs : List Char) (arg : String) (r : List Char)
    (h : parenSpecialTok cs = some (arg, r)) : r.length < cs.length ∧ dollars r ≤ dollars cs := by
  unfold parenSpecialTok at h
  split at h
  · split at h
    · obtain ⟨-, hr⟩ := (Prod.mk.injEq ..).mp (Option.some_inj.mp h)
      subst hr
      refine ⟨by simp only [List.length_cons]; omega, ?_⟩
      unfold dollars
      simp only [List.count_cons]
      omega
    · cases h
  · cases h

theorem tryTokM_le (cs : List Char) (arg : String) (r : List Char)
    (h : tryTokM cs = some (arg, r)) : r.length ≤ cs.length ∧ dollars r ≤ dollars cs := by
  unfold tryTokM at h
  split at h
  · obtain ⟨-, hr⟩ := (Prod.mk.injEq ..).mp (Option.some_inj.mp h)
    subst hr
    refine ⟨?_, dollars_drop _ _⟩
    rw [List.length_drop]
    omega
  · split at h
    · split at h
      · obtain ⟨-, hr⟩ := (Prod.mk.injEq ..).mp (Option.some_inj.mp h)
        subst hr
        refine ⟨?_, dollars_drop _ _⟩
        rw [List.length_drop]
        omega
      · split at h
        · split at h
          · obtain ⟨-, hr⟩ := (Prod.mk.injEq ..).mp (Option.some_inj.mp h)
            subst hr
            refine ⟨?_, dollars_drop _ _⟩
            rw [List.length_drop]
            omega
          · obtain ⟨h1, h2⟩ := parenSpecialTok_le _ arg r h
            exact ⟨le_of_lt h1, h2⟩
        · obtain ⟨h1, h2⟩ := parenSpecialTok_le _ arg r h
          exact ⟨le_of_lt h1, h2⟩
    · obtain ⟨-, hr⟩ := (Prod.mk.injEq ..).mp (Option.some_inj.mp h)
      subst hr
      refine ⟨by simp only [List.length_cons]; omega, ?_⟩
      unfold dollars
      simp only [List.count_cons]
      omega
    · obtain ⟨-, hr⟩ := (Prod.mk.injEq ..).mp (Option.some_inj.mp h)
      subst hr
      refine ⟨by simp only [List.length_cons]; omega, ?_⟩
      unfold dollars
      simp only [List.count_cons]
      omega
    · cases h

/-- Resolution of a matched token (controlflow.go:314-319): `env.NAME`
reads the process environment (missing -> ""), everything else goes through
`GetVar` on the scope stack (missing -> ""). -/
def lookupArg (env : List (String × String)) (scopes : Scopes) (arg : String) : String :=
  if strStarts arg "env." then (fget env ⟨arg.data.drop 4⟩).getD ""
  else (getVar scopes arg).getD ""

/-- One `reArg.ReplaceAllStringFunc` pass (controlflow.go:307-320): scan
left to right, replace every non-overlapping match by its value, record
whether any match was found. -/
def expandScan (env : List (String × String)) (scopes : Scopes) : List Char → List Char × Bool
  | [] => ([], false)
  | c :: rest =>
    if c = '$' then
      match htok : tryTokM rest with
      | some (arg, rest') =>
        ((lookupArg env scopes arg).data ++ (expandScan env scopes rest').1, true)
      | none =>
        ('$' :: (expandScan env scopes rest).1, (expandScan env scopes rest).2)
    else
      (c :: (expandScan env scopes rest).1, (expandScan env scopes rest).2)
termination_by cs => cs.length
decreasing_by
  · have := (tryTokM_le rest arg rest' htok).1
    simp only [List.length_cons]
    omega
  · simp
  · simp

/-- One pass of the rescan loop on a line. -/
def expandPass (env : List (String × String)) (scopes : Scopes) (line : String) :
    String × Bool :=
  ((⟨(expandScan env scopes line.data).1⟩ : String), (expandScan env scopes line.data).2)

/-- The rescan loop (controlflow.go:303-326): repeat the pass until one
finds no match.  The Go loop is unbounded; `fuel` bounds the model and
`none` reports that the bound was hit before a fixpoint. -/
def expandLoop (env : List (String × String)) (scopes : Scopes) : Nat → String → Option String
  | 0, _ => none
  | fuel + 1, line =>
    if (expandPass env scopes line).2 then expandLoop env scopes fuel (expandPass env scopes line).1
    else some (expandPass env scopes line).1

/-- `expandVariables` (controlflow.go:300-330): protect `$$`, rescan until
a pass makes no change, restore the protected dollars. -/
def expandVariables (env : List (String × String)) (scopes : Scopes) (fuel : Nat)
    (line : String) : Option String :=
  (expandLoop env scopes fuel ⟨protectDollars line.data⟩).map
    (fun l => ⟨restoreDollars l.data⟩)

/-! ### The dispatch loop and the conditional command
(`cmd.go:1455-1518`, `plugins/controlflow/controlflow.go:332-374`) -/

/-- `strings.SplitN(line, " ", 2)` followed by `strings.TrimSpace` on the
remainder, as in `oneCmd` (cmd.go:1389-1394): command name and parameter
string. -/
def splitN2 (s : String) : String × String :=
  let tok := s.data.takeWhile (fun c => c ≠ ' ')
  if tok.length = s.data.length then (s, "")
  else (⟨tok⟩, trimS ⟨s.data.drop (tok.length + 1)⟩)

/-- First token for the N=2 tokenizer: a parenthesized group (through its
closing parenthesis) or a whitespace-delimited word. -/
def takeTok (cs : List Char) : List Char × List Char :=
  match cs with
  | '(' :: rest =>
    let inside := rest.takeWhile (fun c => c ≠ ')')
    let after := rest.drop inside.length
    match after with
    | ')' :: tl => ('(' :: (inside ++ [')']), tl)
    | _ => ('(' :: inside, after)
  | _ => (cs.takeWhile (fun c => ¬ c.isWhitespace), cs.dropWhile (fun c => ¬ c.isWhitespace))

/-- Model of `args.GetArgsN(line, 2)` from the external github.com/gobs/args
tokenizer, for quote-free input: the first argument (a parenthesized group
counts as one argument), and the remainder of the line. -/
def getArgsN2 (s : String) : List String :=
  let cs := s.data.dropWhile Char.isWhitespace
  match cs with
  | [] => []
  | _ =>
    let p := takeTok cs
    let rest := p.2.dropWhile Char.isWhitespace
    if rest.isEmpty then [⟨p.1⟩] else [⟨p.1⟩, ⟨rest⟩]

/-- `command_variable` (controlflow.go:184-277) restricted to the paths the
claims exercise: no options (`-g`/`-r`... lines, which start with `-`, and
the listing/printing paths leave the scope stack unchanged) and the default
`OnChange` hook (identity, cmd.go:974-976), so `var name value` sets the
variable in the local scope. -/
def cmdVariable (scopes : Scopes) (line : String) : Option Scopes :=
  if strStarts line "-" then some scopes
  else
    match getArgsN2 line with
    | [] => some scopes
    | [_] => some scopes
    | name :: value :: _ => setVar scopes name value .invalidS

/-- The `!` negation handling at the top of `command_conditional`
(controlflow.go:335-338): the negate flag and the line with the marker
stripped. -/
def parseNeg (line : String) : Bool × String :=
  if strStarts line "!" then (true, ⟨line.data.drop 1⟩) else (false, line)

mutual

/-- `runLoop(mainLoop=false)` (cmd.go:1455-1490) over an in-memory block,
with the command registry restricted to the commands the claims exercise
(`if`, `var`/`set`; anything else hits the `Default` hook, which only
prints).  Variable expansion is not applied (the base `oneCmd` dispatch,
cmd.go:1365-1403).  Fuel decreases on every nested call; `none` means the
fuel ran out (the Go code has no such bound; every theorem quantifies over
or instantiates sufficient fuel).  The boolean is the `stop` result. -/
def runLoopM : Nat → Scopes → List String → Option (Scopes × Bool)
  | 0, _, _ => none
  | fuel + 1, scopes, lines =>
    match readLine lines with
    | none => some (scopes, false)
    | some (line, rest) =>
      if strStarts line "#" ∨ line = "" then runLoopM fuel scopes rest
      else
        match oneCmdM fuel scopes line rest with
        | none => none
        | some (scopes', stop, rest') =>
          if stop then some (scopes', true)
          else runLoopM fuel scopes' rest'

/-- `oneCmd` (cmd.go:1365-1403) for the restricted registry: split the line
into command name and parameters and dispatch.  The third component of the
result is the unread remainder of the line source (the `if` command reads
its blocks from it). -/
def oneCmdM : Nat → Scopes → String → List String → Option (Scopes × Bool × List String)
  | 0, _, _, _ => none
  | fuel + 1, scopes, line, rest =>
    let p := splitN2 line
    if p.1 = "if" then cmdConditionalM fuel scopes p.2 rest
    else if p.1 = "var" ∨ p.1 = "set" then
      (cmdVariable scopes p.2).map (fun s => (s, false, rest))
    else some (scopes, false, rest)

/-- `command_conditional` (controlflow.go:332-374): optional `!` negation,
evaluate the predicate, read the block(s), and run exactly one of them
through `RunBlock` with an empty name.  A predicate or block-syntax error
prints and returns `stop = true`.  The `newscope` argument of the
`RunBlock` call is `false` — modelled from the spec: conditionals
deliberately do not push a child scope (the controlflow revision in the
snapshot predates the `newscope` parameter of `RunBlock`). -/
def cmdConditionalM : Nat → Scopes → String → List String → Option (Scopes × Bool × List String)
  | 0, _, _, _ => none
  | fuel + 1, scopes, line, rest =>
    let p := parseNeg line
    if p.2.data.length = 0 then some (scopes, false, rest)
    else
      match getArgsN2 p.2 with
      | [cond, bdy] =>
        match evalConditional cond with
        | .error _ => some (scopes, true, rest)
        | .ok res =>
          match readBlock bdy "else" rest with
          | .error _ => some (scopes, true, rest)
          | .ok (blk1, oblk2, rest') =>
            match runBlockM fuel scopes ""
                (if (if p.1 then !res else res) then blk1 else oblk2.getD []) none false with
            | none => none
            | some (scopes', stop) => some (scopes', stop, rest')
      | _ => some (scopes, false, rest)

/-- `RunBlock` (cmd.go:1498-1518): prepend the name to a non-nil argument
slice, swap the scanner to the block, optionally push a scope, drive the
loop, optionally pop, restore the scanner; a `stop` from the block
propagates only for an unnamed block. -/
def runBlockM : Nat → Scopes → String → List String → Option (List String) → Bool →
    Option (Scopes × Bool)
  | 0, _, _, _, _, _ => none
  | fuel + 1, scopes, name, body, args, newscope =>
    let args' := args.map (fun a => name :: a)
    match (if newscope then pushScope [] args' scopes else some scopes) with
    | none => none
    | some s1 =>
      match runLoopM fuel s1 body with
      | none => none
      | some (s2, shouldStop) =>
        match (if newscope then popScope s2 else some s2) with
        | none => none
        | some s3 => some (s3, if name = "" then shouldStop else false)
end

/-! ### C1: push/pop balance and the underflow panic -/

/-- One scope-stack operation, for stating the push/pop balance claim. -/
inductive ScopeOp where
  | push (vars : List (String × String)) (args : Option (List String))
  | pop

/-- Run a sequence of push/pop operations; `none` as soon as one panics. -/
def runOps (scopes : Scopes) (ops : List ScopeOp) : Option Scopes :=
  match ops with
  | [] => some scopes
  | .push vars args :: rest => (pushScope vars args scopes).bind (fun s => runOps s rest)
  | .pop :: rest => (popScope scopes).bind (fun s => runOps s rest)

/-- Count of pushes in an operation sequence. -/
def pushCount (ops : List ScopeOp) : Nat :=
  match ops with
  | [] => 0
  | .push _ _ :: rest => pushCount rest + 1
  | .pop :: rest => pushCount rest

/-- Count of pops in an operation sequence. -/
def popCount (ops : List ScopeOp) : Nat :=
  match ops with
  | [] => 0
  | .push _ _ :: rest => popCount rest
  | .pop :: rest => popCount rest + 1

/-- An operation sequence is safe for a starting stack depth when pushes
carry valid argument slices and no pop meets an empty stack. -/
def safeOps (len : Nat) (ops : List ScopeOp) : Prop :=
  match ops with
  | [] => True
  | .push _ args :: rest => args ≠ some [] ∧ safeOps (len + 1) rest
  | .pop :: rest => 1 ≤ len ∧ safeOps (len - 1) rest

instance : ∀ len ops, Decidable (safeOps len ops) := by
  intro len ops
  induction ops generalizing len with
  | nil => exact .isTrue trivial
  | cons op rest ih =>
    cases op with
    | push vars args =>
      unfold safeOps
      exact @instDecidableAnd _ _ inferInstance (ih _)
    | pop =>
      unfold safeOps
      exact @instDecidableAnd _ _ inferInstance (ih _)

theorem makeScope_isSome (vars : List (String × String)) (args : Option (List String))
    (h : args ≠ some []) : (makeScope vars args).isSome := by
  cases args with
  | none => simp [makeScope]
  | some l =>
    cases l with
    | nil => exact absurd rfl h
    | cons a rest => simp [makeScope]

theorem pushScope_length (vars : List (String × String)) (args : Option (List String))
    (scopes : Scopes) (h : args ≠ some []) :
    ∃ s, pushScope vars args scopes = some s ∧ s.length = scopes.length + 1 := by
  have hs := makeScope_isSome vars args h
  obtain ⟨fr, hfr⟩ := Option.isSome_iff_exists.mp hs
  refine ⟨scopes ++ [fr], ?_, ?_⟩
  · simp [pushScope, hfr]
  · simp

theorem popScope_length (scopes : Scopes) (h : 1 ≤ scopes.length) :
    ∃ s, popScope scopes = some s ∧ s.length = scopes.length - 1 := by
  cases scopes with
  | nil => simp at h
  | cons fr rest => exact ⟨_, rfl, by simp⟩

theorem runOps_safe (ops : List ScopeOp) : ∀ scopes : Scopes, safeOps scopes.length ops →
    ∃ s, runOps scopes ops = some s ∧
      (s.length : Int) = scopes.length + pushCount ops - popCount ops := by
  induction ops with
  | nil =>
    intro scopes _
    exact ⟨scopes, rfl, by simp [pushCount, popCount]⟩
  | cons op rest ih =>
    intro scopes hsafe
    cases op with
    | push vars args =>
      obtain ⟨harg, hrest⟩ := hsafe
      obtain ⟨s₁, hs₁, hlen₁⟩ := pushScope_length vars args scopes harg
      have hrest' : safeOps s₁.length rest := by rwa [hlen₁]
      obtain ⟨s₂, hs₂, hlen₂⟩ := ih s₁ hrest'
      refine ⟨s₂, ?_, ?_⟩
      · simp [runOps, hs₁, hs₂]
      · rw [hlen₂, hlen₁]
        simp [pushCount, popCount]
        ring
    | pop =>
      obtain ⟨hlen, hrest⟩ := hsafe
      obtain ⟨s₁, hs₁, hlen₁⟩ := popScope_length scopes hlen
      have hrest' : safeOps s₁.length rest := by rwa [hlen₁]
      obtain ⟨s₂, hs₂, hlen₂⟩ := ih s₁ hrest'
      refine ⟨s₂, ?_, ?_⟩
      · simp [runOps, hs₁, hs₂]
      · rw [hlen₂, hlen₁]
        simp [pushCount, popCount]
        omega

/-- C1 counterexample: `PopScope` on a stack holding only the sole
permanent global frame does not panic; it silently removes that frame and
leaves an empty stack, so the claimed "length ≥ 1 after every operation"
fails. -/
theorem popScope_removes_sole_frame :
    popScope [([("x", "1")] : Frame)] = some [] ∧
    popScope ([] : Scopes) = none := by
  constructor <;> rfl

/-- C1 (amended): `PopScope` aborts (panics) only when the stack is already
empty; starting from the single permanent global frame, any sequence of
`PushScope`/`PopScope` operations in which no pop meets an empty stack (and
every push has a nil or non-empty argument slice) runs without panic and
ends with stack length `1 + pushes - pops`.  In particular equal push/pop
counts restore length 1; but a pop at length 1 removes the sole frame
rather than panicking. -/
theorem c1_pop_panics_only_on_empty (g : Frame) (ops : List ScopeOp)
    (hsafe : safeOps 1 ops) :
    (∀ scopes : Scopes, popScope scopes = none ↔ scopes = []) ∧
    ∃ s, runOps [g] ops = some s ∧
      (s.length : Int) = 1 + pushCount ops - popCount ops := by
  constructor
  · intro scopes
    cases scopes with
    | nil => simp [popScope]
    | cons fr rest => simp [popScope]
  · have h := runOps_safe ops [g] (by simpa using hsafe)
    simpa using h

/-- Witness for C1: a concrete safe sequence (push, push, pop, pop, push)
runs without panic and ends at stack length 2. -/
theorem c1_witness :
    ∃ s, runOps [([] : Frame)]
      [ScopeOp.push [] (some ["f", "a"]), ScopeOp.pop, ScopeOp.push [("k", "v")] none] = some s ∧
      (s.length : Int) = 1 + pushCount [ScopeOp.push [] (some ["f", "a"]), ScopeOp.pop,
        ScopeOp.push [("k", "v")] none] - popCount [ScopeOp.push [] (some ["f", "a"]),
        ScopeOp.pop, ScopeOp.push [("k", "v")] none] :=
  (c1_pop_panics_only_on_empty [] _ (by constructor <;> simp [safeOps])).2

/-! ### C10: PushScope totality -/

/-- C10: `PushScope` with `args = nil` succeeds and binds no positional,
`*` or `#` variable (when `vars` itself carries none); with a non-nil empty
slice the computation `args[1:]` panics; with a non-nil slice of length
≥ 1 it succeeds. -/
theorem c10_pushScope_totality (vars : List (String × String)) (scopes : Scopes)
    (hstar : ∀ v, ("*", v) ∉ vars) (hhash : ∀ v, ("#", v) ∉ vars)
    (hpos : ∀ n v, (itoa n, v) ∉ vars) :
    (∃ s, pushScope vars none scopes = some s ∧
      ∃ fr, s = scopes ++ [fr] ∧ fget fr "*" = none ∧ fget fr "#" = none ∧
        ∀ n, fget fr (itoa n) = none) ∧
    pushScope vars (some []) scopes = none ∧
    (∀ a rest, (pushScope vars (some (a :: rest)) scopes).isSome) := by
  refine ⟨?_, by simp [pushScope, makeScope], ?_⟩
  · refine ⟨scopes ++ [vars.foldl (fun fr p => fset fr p.1 p.2) []], by simp [pushScope, makeScope],
      vars.foldl (fun fr p => fset fr p.1 p.2) [], rfl, ?_, ?_, ?_⟩
    · have : ∀ (l : List (String × String)) (fr : Frame),
          (∀ v, ("*", v) ∉ l) → fget fr "*" = none →
          fget (l.foldl (fun fr p => fset fr p.1 p.2) fr) "*" = none := by
        intro l
        induction l with
        | nil => intro fr _ h; simpa using h
        | cons p rest ih =>
          intro fr hl h
          have hp : p.1 ≠ "*" := by
            intro hk
            exact hl p.2 (by simp [← hk])
          have := ih (fset fr p.1 p.2) (fun v hv => hl v (List.mem_cons_of_mem _ hv))
            (by rw [fget_fset_other _ _ _ _ (Ne.symm hp)]; exact h)
          simpa using this
      exact this vars [] hstar (by simp [fget])
    · have : ∀ (l : List (String × String)) (fr : Frame),
          (∀ v, ("#", v) ∉ l) → fget fr "#" = none →
          fget (l.foldl (fun fr p => fset fr p.1 p.2) fr) "#" = none := by
        intro l
        induction l with
        | nil => intro fr _ h; simpa using h
        | cons p rest ih =>
          intro fr hl h
          have hp : p.1 ≠ "#" := by
            intro hk
            exact hl p.2 (by simp [← hk])
          have := ih (fset fr p.1 p.2) (fun v hv => hl v (List.mem_cons_of_mem _ hv))
            (by rw [fget_fset_other _ _ _ _ (Ne.symm hp)]; exact h)
          simpa using this
      exact this vars [] hhash (by simp [fget])
    · intro n
      have : ∀ (l : List (String × String)) (fr : Frame),
          (∀ m v, (itoa m, v) ∉ l) → fget fr (itoa n) = none →
          fget (l.foldl (fun fr p => fset fr p.1 p.2) fr) (itoa n) = none := by
        intro l
        induction l with
        | nil => intro fr _ h; simpa using h
        | cons p rest ih =>
          intro fr hl h
          have hp : p.1 ≠ itoa n := by
            intro hk
            exact hl n p.2 (by simp [← hk])
          have := ih (fset fr p.1 p.2) (fun m v hv => hl m v (List.mem_cons_of_mem _ hv))
            (by rw [fget_fset_other _ _ _ _ (Ne.symm hp)]; exact h)
          simpa using this
      exact this vars [] hpos (by simp [fget])
  · intro a rest
    simp [pushScope, makeScope]

/-! ### C8: substr versus Python slicing -/

theorem goStartIdx_bounds (a len : Int) (hlen : 0 ≤ len) :
    0 ≤ goStartIdx a len ∧ goStartIdx a len ≤ len := by
  simp only [goStartIdx]
  split_ifs <;> omega

theorem goStart_eq_pyStart (a len : Int) (hlen : 0 ≤ len) :
    goStartIdx a len = if a < 0 then max 0 (len + a) else min a len := by
  simp only [goStartIdx]
  split_ifs <;> omega

/-- C8 counterexample: `expr substr 1:-1 hello` yields `"ello"` while the
Python slice `"hello"[1:-1]` is `"ell"`: the code rebases a negative end as
`start + len + end` instead of Python's `len + end`. -/
theorem substr_negative_end_differs :
    substrGo 1 (some (-1)) "hello" = "ello" ∧
    pySlice 1 (some (-1)) "hello" = "ell" ∧
    substrGo 1 (some (-1)) "hello" ≠ pySlice 1 (some (-1)) "hello" := by decide

/-- C8 (amended): `substr a:b` agrees with the Python slice `s[a:b]`
whenever the end index is nonnegative or omitted, and also whenever the
clamped start index is 0 (in particular for `a = 0` or `a ≤ -len`); for a
negative end with a positive clamped start the code computes
`s[start : start+len+b]` (the negative end additionally offset by the
start), which differs from Python. -/
theorem c8_substr_vs_python (s : String) (a : Int) :
    (∀ b : Int, 0 ≤ b → substrGo a (some b) s = pySlice a (some b) s) ∧
    substrGo a none s = pySlice a none s ∧
    (∀ b : Int, goStartIdx a (s.data.length : Int) = 0 →
      substrGo a (some b) s = pySlice a (some b) s) := by
  have hlen : (0 : Int) ≤ (s.data.length : Int) := by exact_mod_cast Nat.zero_le _
  obtain ⟨hb0, hb1⟩ := goStartIdx_bounds a (s.data.length : Int) hlen
  refine ⟨?_, ?_, ?_⟩
  · intro b hbpos
    simp only [substrGo, pySlice]
    rw [← goStart_eq_pyStart a _ hlen]
    congr 2
    simp only [goEndIdx]
    split_ifs <;> omega
  · simp only [substrGo, pySlice]
    rw [← goStart_eq_pyStart a _ hlen]
    congr 2
    simp only [goEndIdx]
    split_ifs <;> omega
  · intro b hS0
    simp only [substrGo, pySlice]
    rw [← goStart_eq_pyStart a _ hlen]
    congr 2
    simp only [goEndIdx]
    rw [hS0]
    split_ifs <;> omega

/-- Witness for C8: the theorem applied at `substr 1:3 hello`,
`substr 2: hello` and `substr 0:-2 hello`. -/
theorem c8_witness :
    ((0 : Int) ≤ 3 ∧ substrGo 1 (some 3) "hello" = pySlice 1 (some 3) "hello") ∧
    substrGo 2 none "hello" = pySlice 2 none "hello" ∧
    (goStartIdx 0 ("hello".data.length : Int) = 0 ∧
      substrGo 0 (some (-2)) "hello" = pySlice 0 (some (-2)) "hello") := by
  refine ⟨⟨by norm_num, (c8_substr_vs_python "hello" 1).1 3 (by norm_num)⟩,
    (c8_substr_vs_python "hello" 2).2.1,
    ⟨by decide, (c8_substr_vs_python "hello" 0).2.2 (-2) (by decide)⟩⟩

/-! ### C5: arity behaviour of the conditional operators -/

instance {α β : Type} [DecidableEq α] [DecidableEq β] : DecidableEq (Except α β) := fun x y =>
  match x, y with
  | .error a, .error b =>
    if h : a = b then .isTrue (by rw [h]) else .isFalse (fun hc => h (by injection hc))
  | .ok a, .ok b =>
    if h : a = b then .isTrue (by rw [h]) else .isFalse (fun hc => h (by injection hc))
  | .error _, .ok _ => .isFalse (fun hc => Except.noConfusion hc)
  | .ok _, .error _ => .isFalse (fun hc => Except.noConfusion hc)

/-- C5 counterexample: `(startswith a b c)` has three arguments (arity 2
required) yet evaluates to `ok false` — the arity mismatch is treated as
the predicate being false, not as an error; `(n x y)` similarly returns
`ok true`. -/
theorem evalConditional_arity_not_error :
    evalConditional "(startswith a b c)" = .ok false ∧
    evalConditional "(n x y)" = .ok true := by decide

/-- C5 (amended): only some arity mismatches are errors.  `z` errors on two
or more arguments; the lexicographic comparisons error only on more than
two (fewer are padded with empty strings); the numeric comparisons error on
any arity other than two; `startswith`/`endswith`/`contains` error only on
zero arguments.  The others return a boolean: `n`/`t` with two or more
arguments are `true`, `f` is `false`, and `startswith`/`endswith`/
`contains` with one or with three or more arguments are `false`. -/
theorem c5_arity_behavior (a b c : String) (rest : List String) :
    evalCondOp "z" (a :: b :: rest) =
      .error ("expected 1 argument, got " ++ toString (a :: b :: rest).length) ∧
    evalCondOp "n" (a :: b :: rest) = .ok true ∧
    evalCondOp "t" (a :: b :: rest) = .ok true ∧
    evalCondOp "f" (a :: b :: rest) = .ok false ∧
    evalCondOp "eq" (a :: b :: c :: rest) =
      .error ("expected 2 arguments, got " ++ toString (a :: b :: c :: rest).length) ∧
    evalCondOp "eq" [] = .ok true ∧
    evalCondOp "eq" [a] = .ok (cmpStr a "" == 0) ∧
    evalCondOp "eq#" [] = .error "expected 2 arguments, got 0" ∧
    evalCondOp "eq#" [a] = .error ("expected 2 arguments, got " ++ toString [a].length) ∧
    evalCondOp "eq#" (a :: b :: c :: rest) =
      .error ("expected 2 arguments, got " ++ toString (a :: b :: c :: rest).length) ∧
    evalCondOp "eq#" [a, b] = .ok (atoiInt a - atoiInt b == 0) ∧
    evalCondOp "startswith" [] = .error "expected 2 argument, got 0" ∧
    evalCondOp "startswith" [a] = .ok false ∧
    evalCondOp "startswith" (a :: b :: c :: rest) = .ok false ∧
    evalCondOp "endswith" (a :: b :: c :: rest) = .ok false ∧
    evalCondOp "contains" (a :: b :: c :: rest) = .ok false := by
  have hlen : (a :: b :: c :: rest).length > 2 := by
    simp only [List.length_cons]
    omega
  refine ⟨rfl, rfl, rfl, rfl, ?_, by decide, rfl, by decide, rfl, ?_, rfl,
    by decide, rfl, rfl, rfl, rfl⟩
  · simp only [evalCondOp, compareArgs]
    rw [if_pos (Or.inl hlen)]
    rfl
  · simp only [evalCondOp, compareArgs]
    rw [if_pos (Or.inl hlen)]
    rfl

/-! ### C7: ShiftArgs renumbering -/

theorem itoa_ne (j i : Nat) (h : j ≠ i) : itoa j ≠ itoa i :=
  fun he => h (itoa_inj j i he)

theorem shiftLoop_spec (v : Nat → String) (N n : Nat) (hn1 : 1 ≤ n) (hnN : n ≤ N) :
    ∀ (k i : Nat) (fr : Frame) (args : List String), i + k = N → 1 ≤ i →
    fget fr "#" = some (itoa N) →
    (∀ j, i ≤ j → j ≤ N → fget fr (itoa j) = some (v j)) →
    (∀ j, 1 ≤ j → j < i → j ≤ N - n → fget fr (itoa j) = some (v (j + n))) →
    (∀ j, 1 ≤ j → j < i → N - n < j → fget fr (itoa j) = none) →
    (∀ j, N < j → fget fr (itoa j) = none) →
    args = (List.range' (1 + n) (min (i - 1) (N - n))).map v →
    fget (shiftLoop N n k i fr args).1 "#" = some (itoa N) ∧
    fget (shiftLoop N n k i fr args).1 (itoa N) = some (v N) ∧
    (∀ j, 1 ≤ j → j ≤ N - n → fget (shiftLoop N n k i fr args).1 (itoa j) = some (v (j + n))) ∧
    (∀ j, N - n < j → j < N → fget (shiftLoop N n k i fr args).1 (itoa j) = none) ∧
    (∀ j, N < j → fget (shiftLoop N n k i fr args).1 (itoa j) = none) ∧
    (shiftLoop N n k i fr args).2 = (List.range' (1 + n) (N - n)).map v := by
  intro k
  induction k with
  | zero =>
    intro i fr args hik hi1 hH hUp hLo hDel hHi hArgs
    have hiN : N = i := by omega
    subst hiN
    refine ⟨hH, hUp N (le_refl N) (by omega), ?_, ?_, hHi, ?_⟩
    · intro j hj1 hjn
      exact hLo j hj1 (by omega) hjn
    · intro j hjn hji
      exact hDel j (by omega) hji hjn
    · rw [hArgs]
      have hmin : min (N - 1) (N - n) = N - n := by omega
      rw [hmin]
      rfl
  | succ k ih =>
    intro i fr args hik hi1 hH hUp hLo hDel hHi hArgs
    have hiN : i < N := by omega
    by_cases hbr : i + n > N
    · have hstep : shiftLoop N n (k + 1) i fr args =
          shiftLoop N n k (i + 1) (ferase fr (itoa i)) args := by
        simp [shiftLoop, hbr]
      rw [hstep]
      apply ih (i + 1) (ferase fr (itoa i)) args (by omega) (by omega)
      · rw [fget_ferase_other _ _ _ (Ne.symm (itoa_ne_hash i))]
        exact hH
      · intro j hj1 hj2
        rw [fget_ferase_other _ _ _ (itoa_ne j i (by omega))]
        exact hUp j (by omega) hj2
      · intro j hj1 hj2 hj3
        rw [fget_ferase_other _ _ _ (itoa_ne j i (by omega))]
        exact hLo j hj1 (by omega) hj3
      · intro j hj1 hj2 hj3
        by_cases hje : j = i
        · subst hje
          exact fget_ferase_self fr (itoa j)
        · rw [fget_ferase_other _ _ _ (itoa_ne j i hje)]
          exact hDel j hj1 (by omega) hj3
      · intro j hj
        rw [fget_ferase_other _ _ _ (itoa_ne j i (by omega))]
        exact hHi j hj
      · rw [hArgs]
        have hmin : min (i - 1) (N - n) = min (i + 1 - 1) (N - n) := by omega
        rw [hmin]
    · have hread : fget fr (itoa (i + n)) = some (v (i + n)) :=
        hUp (i + n) (by omega) (by omega)
      have hstep : shiftLoop N n (k + 1) i fr args =
          shiftLoop N n k (i + 1) (fset fr (itoa i) (v (i + n))) (args ++ [v (i + n)]) := by
        simp [shiftLoop, hbr, hread]
      rw [hstep]
      apply ih (i + 1) _ _ (by omega) (by omega)
      · rw [fget_fset_other _ _ _ _ (Ne.symm (itoa_ne_hash i))]
        exact hH
      · intro j hj1 hj2
        rw [fget_fset_other _ _ _ _ (itoa_ne j i (by omega))]
        exact hUp j (by omega) hj2
      · intro j hj1 hj2 hj3
        by_cases hje : j = i
        · subst hje
          exact fget_fset_self fr (itoa j) (v (j + n))
        · rw [fget_fset_other _ _ _ _ (itoa_ne j i hje)]
          exact hLo j hj1 (by omega) hj3
      · intro j hj1 hj2 hj3
        rw [fget_fset_other _ _ _ _ (itoa_ne j i (by omega))]
        exact hDel j hj1 (by omega) hj3
      · intro j hj
        rw [fget_fset_other _ _ _ _ (itoa_ne j i (by omega))]
        exact hHi j hj
      · rw [hArgs]
        have hmin1 : min (i - 1) (N - n) = i - 1 := by omega
        have hmin2 : min (i + 1 - 1) (N - n) = i := by omega
        rw [hmin1, hmin2]
        have hi' : i = (i - 1) + 1 := by omega
        have hconcat : List.range' (1 + n) i = List.range' (1 + n) (i - 1) ++ [i + n] := by
          conv_lhs => rw [hi']
          rw [List.range'_concat]
          congr 2
          omega
        rw [hconcat]
        simp

/-- C7 counterexample: with $1=a, $2=b ($#=2), ShiftArgs(1) leaves the
positional variable $2 still bound (to "b"): the renumbering loop stops at
`i < nargs` and never deletes the highest index, contradicting the claim
that no positional variable with index greater than N−n remains bound. -/
theorem shiftArgs_leaves_last_index :
    fget (shiftArgs [("0", "f"), ("1", "a"), ("2", "b"), ("*", "a b"), ("#", "2")] 1) "2"
      = some "b" := by decide

/-- C7 (amended): for `1 ≤ n ≤ N`, `ShiftArgs(n)` rebinds `$1..$(N−n)` to
the previous `$(1+n)..$N`, deletes the positionals `$(N−n+1)..$(N−1)`, and
recomputes `$*` (join of the remaining arguments) and `$#` (their count
`N−n`) — but the highest positional `$N` is never removed and keeps its old
value, because the loop runs `i` only up to `N−1`.  For `n > N` the frame
is unchanged. -/
theorem c7_shiftArgs (fr : Frame) (v : Nat → String) (N n : Nat)
    (hH : fget fr "#" = some (itoa N))
    (hPos : ∀ j, 1 ≤ j → j ≤ N → fget fr (itoa j) = some (v j))
    (hHi : ∀ j, N < j → fget fr (itoa j) = none) :
    (N < n → shiftArgs fr n = fr) ∧
    (1 ≤ n → n ≤ N →
      fget (shiftArgs fr n) "#" = some (itoa (N - n)) ∧
      fget (shiftArgs fr n) "*" = some (joinSp ((List.range' (1 + n) (N - n)).map v)) ∧
      (∀ j, 1 ≤ j → j ≤ N - n → fget (shiftArgs fr n) (itoa j) = some (v (j + n))) ∧
      (∀ j, N - n < j → j < N → fget (shiftArgs fr n) (itoa j) = none) ∧
      fget (shiftArgs fr n) (itoa N) = some (v N) ∧
      (∀ j, N < j → fget (shiftArgs fr n) (itoa j) = none)) := by
  constructor
  · intro hlt
    have hc : (n : Int) > (N : Int) := by exact_mod_cast hlt
    simp [shiftArgs, hH, atoiInt_itoa, hc]
  · intro hn1 hnN
    have hc : ¬((n : Int) > (N : Int)) := by exact_mod_cast not_lt.mpr hnN
    have hres : shiftArgs fr n =
        fset (fset (shiftLoop N n (N - 1) 1 fr []).1 "*"
            (joinSp (shiftLoop N n (N - 1) 1 fr []).2)) "#"
          (itoa (shiftLoop N n (N - 1) 1 fr []).2.length) := by
      simp [shiftArgs, hH, atoiInt_itoa, hc]
    have hspec := shiftLoop_spec v N n hn1 hnN (N - 1) 1 fr [] (by omega) (by omega)
      hH hPos (by intro j h1 h2; omega) (by intro j h1 h2; omega) hHi
      (by simp)
    obtain ⟨g1, g2, g3, g4, g5, g6⟩ := hspec
    have hlen : (shiftLoop N n (N - 1) 1 fr []).2.length = N - n := by
      rw [g6]
      simp
    rw [hres]
    refine ⟨?_, ?_, ?_, ?_, ?_, ?_⟩
    · rw [fget_fset_self, hlen]
    · rw [fget_fset_other _ _ _ _ (by decide), fget_fset_self, g6]
    · intro j hj1 hj2
      rw [fget_fset_other _ _ _ _ (itoa_ne_hash j),
        fget_fset_other _ _ _ _ (itoa_ne_star j)]
      exact g3 j hj1 hj2
    · intro j hj1 hj2
      rw [fget_fset_other _ _ _ _ (itoa_ne_hash j),
        fget_fset_other _ _ _ _ (itoa_ne_star j)]
      exact g4 j hj1 hj2
    · rw [fget_fset_other _ _ _ _ (itoa_ne_hash N),
        fget_fset_other _ _ _ _ (itoa_ne_star N)]
      exact g2
    · intro j hj
      rw [fget_fset_other _ _ _ _ (itoa_ne_hash j),
        fget_fset_other _ _ _ _ (itoa_ne_star j)]
      exact g5 j hj

/-! ### C2: conditionals run exactly one block in the enclosing scope -/

theorem getD_concat (l : List Frame) (fr : Frame) : (l ++ [fr]).getD l.length [] = fr := by
  induction l with
  | nil => rfl
  | cons g t ih => simpa [List.getD] using ih

theorem set_concat (l : List Frame) (fr g : Frame) : (l ++ [fr]).set l.length g = l ++ [g] := by
  induction l with
  | nil => rfl
  | cons a t ih => simp [List.set, ih]

theorem scopeIndex_local (scopes : Scopes) (h : scopes ≠ []) :
    scopeIndex scopes .invalidS = some (scopes.length - 1) := by
  cases scopes with
  | nil => exact absurd rfl h
  | cons a t => rfl

theorem setVar_local (l : Scopes) (fr : Frame) (x v : String) :
    setVar (l ++ [fr]) x v .invalidS = some (l ++ [fset fr x v]) := by
  have h1 : scopeIndex (l ++ [fr]) .invalidS = some ((l ++ [fr]).length - 1) :=
    scopeIndex_local _ (by simp)
  have h2 : (l ++ [fr]).length - 1 = l.length := by simp
  rw [setVar, h1, Option.map_some', h2, getD_concat, set_concat]

theorem getVar_concat (l : Scopes) (fr : Frame) (x : String) :
    getVar (l ++ [fr]) x =
      (match fget fr x with | some v => some v | none => getVar l x) := by
  induction l with
  | nil =>
    show getVar [fr] x = _
    cases hf : fget fr x <;> simp [getVar, hf]
  | cons a t ih =>
    show getVar (a :: (t ++ [fr])) x = _
    rw [getVar, ih]
    cases hf : fget fr x <;> cases hg : getVar t x <;> simp [getVar, hf, hg]

theorem cmdVariable_length (scopes s : Scopes) (line : String)
    (h : cmdVariable scopes line = some s) : s.length = scopes.length := by
  unfold cmdVariable at h
  split at h
  · exact (Option.some_inj.mp h) ▸ rfl
  · split at h
    · exact (Option.some_inj.mp h) ▸ rfl
    · exact (Option.some_inj.mp h) ▸ rfl
    · unfold setVar at h
      cases hi : scopeIndex scopes .invalidS with
      | none => rw [hi] at h; cases h
      | some i =>
        rw [hi, Option.map_some', Option.some_inj] at h
        rw [← h]
        simp

theorem pushScope_some_length (vars : List (String × String)) (args : Option (List String))
    (scopes s : Scopes) (h : pushScope vars args scopes = some s) :
    s.length = scopes.length + 1 := by
  unfold pushScope at h
  cases hm : makeScope vars args with
  | none => rw [hm] at h; cases h
  | some fr =>
    rw [hm, Option.map_some', Option.some_inj] at h
    rw [← h]
    simp

theorem popScope_some_length (s2 s3 : Scopes) (h : popScope s2 = some s3) :
    s3.length = s2.length - 1 := by
  cases s2 with
  | nil => cases h
  | cons a t =>
    have hs : s3 = (a :: t).dropLast := (Option.some_inj.mp h).symm
    rw [hs, List.length_dropLast]

/-- Frame-count preservation: in the modelled registry every command
(including a conditional, whose `RunBlock` call does not open a scope)
leaves the number of scope frames unchanged. -/
theorem interpPreserve : ∀ fuel : Nat,
    (∀ scopes lines s stop, runLoopM fuel scopes lines = some (s, stop) →
      s.length = scopes.length) ∧
    (∀ scopes line rest s stop rest', oneCmdM fuel scopes line rest = some (s, stop, rest') →
      s.length = scopes.length) ∧
    (∀ scopes line rest s stop rest',
      cmdConditionalM fuel scopes line rest = some (s, stop, rest') →
      s.length = scopes.length) ∧
    (∀ scopes name body args ns s stop, runBlockM fuel scopes name body args ns = some (s, stop) →
      s.length = scopes.length) := by
  intro fuel
  induction fuel with
  | zero =>
    refine ⟨?_, ?_, ?_, ?_⟩
    · intro scopes lines s stop h
      cases h
    · intro scopes line rest s stop rest' h
      cases h
    · intro scopes line rest s stop rest' h
      cases h
    · intro scopes name body args ns s stop h
      cases h
  | succ f ih =>
    obtain ⟨ihLoop, ihOne, ihCond, ihBlock⟩ := ih
    refine ⟨?_, ?_, ?_, ?_⟩
    · intro scopes lines s stop h
      rw [runLoopM] at h
      split at h
      · have h' := Option.some_inj.mp h
        rw [Prod.mk.injEq] at h'
        rw [← h'.1]
      · split at h
        · exact ihLoop _ _ _ _ h
        · split at h
          · cases h
          · rename_i s' stop' rest' heq
            split at h
            · have h' := Option.some_inj.mp h
              rw [Prod.mk.injEq] at h'
              rw [← h'.1]
              exact ihOne _ _ _ _ _ _ heq
            · have h1 := ihLoop _ _ _ _ h
              have h2 := ihOne _ _ _ _ _ _ heq
              omega
    · intro scopes line rest s stop rest' h
      rw [oneCmdM] at h
      split at h
      · exact ihCond _ _ _ _ _ _ h
      · split at h
        · cases hv : cmdVariable scopes (splitN2 line).2 with
          | none => rw [hv] at h; cases h
          | some s' =>
            rw [hv, Option.map_some'] at h
            have h' := Option.some_inj.mp h
            rw [Prod.mk.injEq] at h'
            rw [← h'.1]
            exact cmdVariable_length scopes s' _ hv
        · have h' := Option.some_inj.mp h
          rw [Prod.mk.injEq] at h'
          rw [← h'.1]
    · intro scopes line rest s stop rest' h
      rw [cmdConditionalM] at h
      split at h
      · have h' := Option.some_inj.mp h
        rw [Prod.mk.injEq] at h'
        rw [← h'.1]
      · split at h
        · split at h
          · have h' := Option.some_inj.mp h
            rw [Prod.mk.injEq] at h'
            rw [← h'.1]
          · split at h
            · have h' := Option.some_inj.mp h
              rw [Prod.mk.injEq] at h'
              rw [← h'.1]
            · split at h
              · cases h
              · rename_i s' stop' heq
                have h' := Option.some_inj.mp h
                rw [Prod.mk.injEq] at h'
                rw [← h'.1]
                exact ihBlock _ _ _ _ _ _ _ heq
        · have h' := Option.some_inj.mp h
          rw [Prod.mk.injEq] at h'
          rw [← h'.1]
    · intro scopes name body args ns s stop h
      cases ns with
      | false =>
        rw [runBlockM] at h
        simp only [Bool.false_eq_true, if_false] at h
        cases hl : runLoopM f scopes body with
        | none => simp [hl] at h
        | some pr =>
          obtain ⟨s2, st⟩ := pr
          simp only [hl] at h
          have h1 : s2 = s := congrArg Prod.fst (Option.some_inj.mp h)
          rw [← h1]
          exact ihLoop scopes body s2 st hl
      | true =>
        rw [runBlockM] at h
        simp only [if_true] at h
        cases hp : pushScope [] (args.map (fun a => name :: a)) scopes with
        | none => simp [hp] at h
        | some s1 =>
          simp only [hp] at h
          cases hl : runLoopM f s1 body with
          | none => simp [hl] at h
          | some pr =>
            obtain ⟨s2, st⟩ := pr
            simp only [hl] at h
            cases hpop : popScope s2 with
            | none => simp [hpop] at h
            | some s3 =>
              simp only [hpop] at h
              have h1 : s3 = s := congrArg Prod.fst (Option.some_inj.mp h)
              rw [← h1]
              have e1 := pushScope_some_length _ _ _ _ hp
              have e2 := ihLoop s1 body s2 st hl
              have e3 := popScope_some_length s2 s3 hpop
              omega

theorem mergeCont_no_cont (line : String) (ls : List String) (h : strEnds line "\\" = false) :
    mergeCont line ls = (line, ls) := by
  cases ls with
  | nil => simp [mergeCont, stripContLoop, h]
  | cons a tl => simp [mergeCont, h]

theorem readLine_plain (l : String) (rest : List String) (hl : trimS l = l)
    (hc : strEnds l "\\" = false) : readLine (l :: rest) = some (l, rest) := by
  simp only [readLine, hl, mergeCont_no_cont l rest hc]

theorem readBlockLoop_cons (opened : Nat) (acc : List String) (l : String) (rest : List String)
    (hl : trimS l = l) (hc : strEnds l "\\" = false) :
    readBlockLoop opened acc (l :: rest) =
      (if strStarts l "#" ∨ l = "" then readBlockLoop opened (acc ++ [l]) rest
       else if strStarts l "\x7d" ∧ opened - 1 = 0 then .ok (acc, l, rest)
       else readBlockLoop ((if strStarts l "\x7d" then opened - 1 else opened) +
          (if strEnds l "\x7b" then 1 else 0)) (acc ++ [l]) rest) := by
  rw [readBlockLoop, readLine_plain l rest hl hc]
  simp only [hl]

theorem readBlockLoop_close (acc rest : List String) :
    readBlockLoop 1 acc ("\x7d" :: rest) = .ok (acc, "\x7d", rest) := by
  rw [readBlockLoop_cons 1 acc "\x7d" rest (by decide) (by decide)]
  rw [if_neg (by decide), if_pos (by decide)]

theorem readBlockLoop_collects : ∀ (pre acc rest : List String),
    (∀ l ∈ pre, trimS l = l ∧ strEnds l "\\" = false ∧
      (strStarts l "#" = true ∨ l = "" ∨
        (strStarts l "\x7d" = false ∧ strEnds l "\x7b" = false))) →
    readBlockLoop 1 acc (pre ++ "\x7d" :: rest) = .ok (acc ++ pre, "\x7d", rest) := by
  intro pre
  induction pre with
  | nil =>
    intro acc rest _
    simpa using readBlockLoop_close acc rest
  | cons l pre ih =>
    intro acc rest hp
    obtain ⟨hl, hc, hkind⟩ := hp l (by simp)
    have hrest : ∀ x ∈ pre, trimS x = x ∧ strEnds x "\\" = false ∧
        (strStarts x "#" = true ∨ x = "" ∨
          (strStarts x "\x7d" = false ∧ strEnds x "\x7b" = false)) :=
      fun x hx => hp x (List.mem_cons_of_mem _ hx)
    rw [List.cons_append, readBlockLoop_cons 1 acc l _ hl hc]
    by_cases hskip : (strStarts l "#" = true ∨ l = "")
    · rw [if_pos hskip, ih (acc ++ [l]) rest hrest]
      simp
    · have hk : strStarts l "\x7d" = false ∧ strEnds l "\x7b" = false := by
        rcases hkind with hk | hk | hk
        · exact absurd (Or.inl hk) hskip
        · exact absurd (Or.inr hk) hskip
        · exact hk
      rw [if_neg hskip]
      rw [if_neg (by simp [hk.1])]
      rw [hk.1, hk.2]
      simp only [Bool.false_eq_true, if_false]
      rw [ih (acc ++ [l]) rest hrest]
      simp

/-! ### C6: `expr` errors and the `error` variable
(`plugins/controlflow/controlflow.go:575-793`) -/

/-- ASCII model of `strings.ToUpper`. -/
def toUpperS (s : String) : String := ⟨s.data.map Char.toUpper⟩

/-- ASCII model of `strings.ToLower`. -/
def toLowerS (s : String) : String := ⟨s.data.map Char.toLower⟩

/-- `strings.Split` on a single-character separator (the `substr` case
splits its range argument on `:`). -/
def splitChar (sep : Char) : List Char → List (List Char)
  | [] => [[]]
  | c :: rest =>
    if c = sep then [] :: splitChar sep rest
    else
      match splitChar sep rest with
      | [] => [[c]]
      | g :: gs => (c :: g) :: gs

/-- The library calls of `command_expression` that are outside this
repository, as oracle parameters: `strconv.ParseFloat`/`ParseInt` (`none`
is a parse error), `rand.Int63n`, `regexp.Compile` (`some msg` is the
printed compile error) and `FindStringSubmatch`, the `floatString` /
`intString` formatters, `fmt.Sprintf("%q", ...)` on a string list, and
`strings.Split`.  The claim's property is proved for every behaviour of
these. -/
structure ExprOracle where
  parseFloat : String → Option Float
  parseInt : String → Option Int
  rand : Int → Int
  reCompileErr : String → Option String
  reMatch : String → String → List String
  floatString : Float → String
  intString : Int → Int → String
  quoteList : List String → String
  splitStr : String → String → List String

/-- Outcome of the operator `switch` of `command_expression`
(controlflow.go:586-785): a panic, a printed error message followed by an
early `return` (before any `SetVar`), or a computed result string. -/
inductive ExprStep where
  | perr
  | emsg (msg : String)
  | eres (res : String)

/-- The operator `switch` of `command_expression`
(controlflow.go:586-785), branch by branch. -/
def exprSwitch (o : ExprOracle) (op arg : String) : ExprStep :=
  if op = "round" then
    let pr : Nat × String :=
      if strStarts arg "up " then (1, trimS ⟨arg.data.drop 3⟩)
      else if strStarts arg "down " then (2, trimS ⟨arg.data.drop 5⟩)
      else (0, arg)
    match o.parseFloat pr.2 with
    | none => .emsg "not a number"
    | some n =>
      .eres (o.floatString (
        if pr.1 = 1 then n.ceil
        else if pr.1 = 2 then n.floor
        else if n - n.floor > 0.5 then n.ceil else n.floor))
  else if op = "rand" then
    let parts := getArgs arg
    if parts.length > 2 then .emsg "usage: rand max [base]"
    else
      match parts with
      | [] => .perr
      | p0 :: ptail =>
        let negmax : Bool × Int :=
          match o.parseInt p0 with
          | none => (false, 9223372036854775807)
          | some v =>
            if v = 0 then (false, 9223372036854775807)
            else if v < 0 then (true, -v) else (false, v)
        match ptail with
        | [] =>
          let r := o.rand negmax.2
          .eres (o.intString (if negmax.1 then -r else r) 10)
        | b :: _ =>
          match o.parseInt b with
          | none => .emsg "base should be a number"
          | some bv =>
            let base := if bv ≤ 0 then 10 else if bv > 36 then 36 else bv
            let r := o.rand negmax.2
            .eres (o.intString (if negmax.1 then -r else r) base)
  else if op = "+" ∨ op = "-" ∨ op = "*" ∨ op = "/" then
    match getArgs arg with
    | [a1, a2] =>
      match o.parseFloat a1 with
      | none => .emsg ("not a number: " ++ a1)
      | some n1 =>
        match o.parseFloat a2 with
        | none => .emsg ("not a number: " ++ a2)
        | some n2 =>
          .eres (o.floatString (
            if op = "+" then n1 + n2
            else if op = "-" then n1 - n2
            else if op = "*" then n1 * n2
            else n1 / n2))
    | _ => .emsg ("usage: " ++ op ++ " arg1 arg2")
  else if op = "upper" then .eres (toUpperS arg)
  else if op = "lower" then .eres (toLowerS arg)
  else if op = "substr" then
    match getArgsN2 arg with
    | [] => .emsg "usage: substr start:end line"
    | ps =>
      let l := if ps.length = 1 then "" else ps.getD 1 ""
      let srange := ps.getD 0 ""
      if ¬ srange.data.contains ':' then .emsg ("expected start:end, got " ++ srange)
      else
        let sp := splitChar ':' srange.data
        let st := atoiInt ⟨sp.getD 0 []⟩
        let b : Option Int :=
          if sp.getD 1 [] = [] then none else some (atoiInt ⟨sp.getD 1 []⟩)
        .eres (substrGo st b l)
  else if op = "split" then
    match getArgsN2 arg with
    | [] => .emsg "usage: split sep line"
    | [_] => .eres ""
    | sep :: l :: _ => .eres (o.quoteList (o.splitStr l sep))
  else if op = "re" ∨ op = "regex" ∨ op = "regexp" then
    match getArgsN2 arg with
    | [] => .emsg "usage: re expr line"
    | [_] => .eres ""
    | rx :: l :: _ =>
      match o.reCompileErr rx with
      | some e => .emsg e
      | none =>
        let ms := o.reMatch rx l
        if ms.length = 0 then .eres ""
        else if ms.length = 1 then .eres (ms.getD 0 "")
        else if ms.length = 2 then .eres (ms.getD 1 "")
        else .eres (o.quoteList (ms.drop 1))
  else .emsg ("invalid operator: " ++ op)

/-- Observable outcome of `command_expression` on the scope stack. -/
inductive ExprOut where
  | panicked
  | failed (msg : String) (scopes : Scopes)
  | done (res : String) (scopes : Scopes)
deriving DecidableEq

/-- `command_expression` (controlflow.go:575-793): split off the operator
with `GetArgsN(line, 2)`; fewer than two parts prints
"missing argument(s)" and returns; otherwise run the operator switch, and
on success set `result` in the local scope (`cf.cmd.SetVar`,
controlflow.go:791).  Every error path returns before the `SetVar`. -/
def cmdExpression (o : ExprOracle) (scopes : Scopes) (line : String) : ExprOut :=
  match getArgsN2 line with
  | [op, arg] =>
    match exprSwitch o op arg with
    | .perr => .panicked
    | .emsg m => .failed m scopes
    | .eres res =>
      match setVar scopes "result" res .localS with
      | none => .panicked
      | some s' => .done res s'
  | _ => .failed "missing argument(s)" scopes

theorem getVar_set_fset (scopes : Scopes) (i : Nat) (k v k' : String) (hk : k' ≠ k) :
    getVar (scopes.set i (fset (scopes.getD i []) k v)) k' = getVar scopes k' := by
  induction scopes generalizing i with
  | nil => simp
  | cons fr rest ih =>
    cases i with
    | zero =>
      simp only [List.set, List.getD_cons_zero, getVar]
      rw [fget_fset_other fr k k' v hk]
    | succ j =>
      simp only [List.set, List.getD_cons_succ, getVar]
      rw [ih j]

theorem getVar_setVar_ne (scopes : Scopes) (k v k' : String) (sc : GoScope) (s' : Scopes)
    (h : setVar scopes k v sc = some s') (hk : k' ≠ k) :
    getVar s' k' = getVar scopes k' := by
  unfold setVar at h
  cases hi : scopeIndex scopes sc with
  | none => rw [hi] at h; cases h
  | some i =>
    rw [hi] at h
    simp only [Option.map_some'] at h
    rw [← Option.some_inj.mp h]
    exact getVar_set_fset scopes i k v k' hk

/-- All-default instantiation of the oracle, for concrete runs. -/
def exprOracle0 : ExprOracle where
  parseFloat := fun _ => none
  parseInt := fun _ => none
  rand := fun _ => 0
  reCompileErr := fun _ => none
  reMatch := fun _ _ => []
  floatString := fun _ => ""
  intString := fun _ _ => ""
  quoteList := fun _ => ""
  splitStr := fun _ _ => []

/-- C6 counterexample: `expr bogus 1` reports the user-visible error
"invalid operator: bogus" (controlflow.go:783) but does not store it — nor
anything — into the `error` variable: the scope stack is returned
unchanged and `$error` remains unbound. -/
theorem expr_error_not_stored :
    cmdExpression exprOracle0 [[]] "bogus 1" =
      .failed "invalid operator: bogus" [[]] ∧
    getVar ([[]] : Scopes) "error" = none := by
  exact ⟨by decide, by decide⟩

/-- C6 (amended): `command_expression` never writes the `error` variable.
Its user-visible errors (missing arguments, bad operator, bad numbers,
malformed ranges, bad regexps) are only printed: every error path returns
with the scope stack entirely unchanged, and even a successful run changes
only `result`, leaving the binding of `error` exactly as it was.  (The
`error` variable is written only by other commands — the json and stats
plugins — so `$error` does not reflect `expr` failures.) -/
theorem c6_expr_error_variable (o : ExprOracle) (scopes : Scopes) (line : String) :
    (∀ msg s', cmdExpression o scopes line = .failed msg s' → s' = scopes) ∧
    (∀ res s', cmdExpression o scopes line = .done res s' →
      getVar s' "error" = getVar scopes "error") := by
  constructor
  · intro msg s' h
    unfold cmdExpression at h
    split at h
    · split at h
      · cases h
      · injection h with h1 h2
        exact h2.symm
      · split at h
        · cases h
        · cases h
    · injection h with h1 h2
      exact h2.symm
  · intro res s' h
    unfold cmdExpression at h
    split at h
    · split at h
      · cases h
      · cases h
      · split at h
        · cases h
        · injection h with h1 h2
          subst h1
          subst h2
          exact getVar_setVar_ne scopes "result" _ "error" .localS _ (by assumption) (by decide)
    · cases h

/-- Witness for C6: `expr upper abc` succeeds, sets `result`, and leaves
`error` unbound as before. -/
theorem c6_witness :
    cmdExpression exprOracle0 [[]] "upper abc" = .done "ABC" [[("result", "ABC")]] ∧
    getVar [[("result", "ABC")]] "error" = getVar ([[]] : Scopes) "error" :=
  ⟨by decide,
   (c6_expr_error_variable exprOracle0 [[]] "upper abc").2 "ABC" [[("result", "ABC")]]
     (by decide)⟩

/-! ### C3: termination of variable expansion -/

theorem fget_mem (fr : Frame) (k v : String) (h : fget fr k = some v) : (k, v) ∈ fr := by
  induction fr with
  | nil => cases h
  | cons p rest ih =>
    obtain ⟨k', v'⟩ := p
    by_cases hk : k' = k
    · subst hk
      simp [fget] at h
      subst h
      simp
    · simp [fget, hk] at h
      exact List.mem_cons_of_mem _ (ih h)

theorem getVar_mem (scopes : Scopes) (k v : String) (h : getVar scopes k = some v) :
    ∃ fr, fr ∈ scopes ∧ fget fr k = some v := by
  induction scopes with
  | nil => cases h
  | cons fr rest ih =>
    rw [getVar] at h
    cases hg : getVar rest k with
    | some v' =>
      rw [hg] at h
      obtain ⟨fr', hm, hf⟩ := ih (hg.trans (congrArg some (Option.some_inj.mp h)))
      exact ⟨fr', List.mem_cons_of_mem _ hm, hf⟩
    | none =>
      rw [hg] at h
      exact ⟨fr, by simp, h⟩

theorem lookupArg_clean (env : List (String × String)) (scopes : Scopes) (arg : String)
    (henv : ∀ p ∈ env, ('$' : Char) ∉ (p.2 : String).data)
    (hsc : ∀ fr ∈ scopes, ∀ p ∈ fr, ('$' : Char) ∉ (p.2 : String).data) :
    ('$' : Char) ∉ (lookupArg env scopes arg).data := by
  unfold lookupArg
  split
  · cases hf : fget env ⟨arg.data.drop 4⟩ with
    | none => simp
    | some v =>
      simp only [hf, Option.getD_some]
      exact henv _ (fget_mem _ _ _ hf)
  · cases hg : getVar scopes arg with
    | none => simp
    | some v =>
      simp only [hg, Option.getD_some]
      obtain ⟨fr, hm, hf⟩ := getVar_mem scopes arg v hg
      exact hsc fr hm _ (fget_mem _ _ _ hf)

theorem expandScan_spec (env : List (String × String)) (scopes : Scopes)
    (henv : ∀ p ∈ env, ('$' : Char) ∉ (p.2 : String).data)
    (hsc : ∀ fr ∈ scopes, ∀ p ∈ fr, ('$' : Char) ∉ (p.2 : String).data) :
    ∀ (n : Nat) (cs : List Char), cs.length ≤ n →
      ((expandScan env scopes cs).2 = true →
        dollars (expandScan env scopes cs).1 < dollars cs) ∧
      ((expandScan env scopes cs).2 = false → (expandScan env scopes cs).1 = cs) := by
  intro n
  induction n with
  | zero =>
    intro cs hcs
    have hnil : cs = [] := List.eq_nil_of_length_eq_zero (Nat.le_zero.mp hcs)
    subst hnil
    constructor
    · intro ht
      simp [expandScan] at ht
    · intro _
      simp [expandScan]
  | succ m ih =>
    intro cs hcs
    cases cs with
    | nil =>
      constructor
      · intro ht
        simp [expandScan] at ht
      · intro _
        simp [expandScan]
    | cons c rest =>
      have hrl : rest.length ≤ m := by
        simp only [List.length_cons] at hcs
        omega
      by_cases hc : c = '$'
      · subst hc
        cases htok : tryTokM rest with
        | some pr =>
          obtain ⟨arg, rest'⟩ := pr
          have heq : expandScan env scopes ('$' :: rest) =
              ((lookupArg env scopes arg).data ++ (expandScan env scopes rest').1, true) := by
            rw [expandScan]
            rw [if_pos rfl]
            split
            · rename_i a r h1
              rw [htok] at h1
              obtain ⟨ha, hr⟩ := Prod.mk.injEq .. |>.mp (Option.some_inj.mp h1)
              subst ha
              subst hr
              rfl
            · rename_i h1
              rw [htok] at h1
              cases h1
          obtain ⟨hlen', hdol'⟩ := tryTokM_le rest arg rest' htok
          have ih' := ih rest' (le_trans hlen' hrl)
          constructor
          · intro _
            rw [heq]
            have hclean := lookupArg_clean env scopes arg henv hsc
            have hcnt : dollars (lookupArg env scopes arg).data = 0 := by
              unfold dollars
              exact List.count_eq_zero.mpr hclean
            have hsplit : dollars ((lookupArg env scopes arg).data ++
                (expandScan env scopes rest').1) =
                dollars (expandScan env scopes rest').1 := by
              unfold dollars at hcnt ⊢
              rw [List.count_append]
              omega
            have hcons : dollars ('$' :: rest) = dollars rest + 1 := by
              unfold dollars
              simp [List.count_cons]
            rw [hsplit]
            cases hf2 : (expandScan env scopes rest').2 with
            | true =>
              have := ih'.1 hf2
              omega
            | false =>
              rw [ih'.2 hf2]
              omega
          · intro hfalse
            rw [heq] at hfalse
            cases hfalse
        | none =>
          have heq : expandScan env scopes ('$' :: rest) =
              ('$' :: (expandScan env scopes rest).1, (expandScan env scopes rest).2) := by
            rw [expandScan]
            rw [if_pos rfl]
            split
            · rename_i a r h1
              rw [htok] at h1
              cases h1
            · rfl
          have ih' := ih rest hrl
          have hcons : dollars ('$' :: rest) = dollars rest + 1 := by
            unfold dollars
            simp [List.count_cons]
          constructor
          · intro ht
            rw [heq] at ht ⊢
            have := ih'.1 ht
            have hd : dollars ('$' :: (expandScan env scopes rest).1) =
                dollars (expandScan env scopes rest).1 + 1 := by
              unfold dollars
              simp [List.count_cons]
            simp only [hd]
            omega
          · intro hf
            rw [heq] at hf ⊢
            have := ih'.2 hf
            simp [this]
      · have heq : expandScan env scopes (c :: rest) =
            (c :: (expandScan env scopes rest).1, (expandScan env scopes rest).2) := by
          rw [expandScan]
          simp [hc]
        have ih' := ih rest hrl
        have hcons : dollars (c :: rest) = dollars rest := by
          unfold dollars
          simp [List.count_cons, hc]
        constructor
        · intro ht
          rw [heq] at ht ⊢
          have := ih'.1 ht
          have hd : dollars (c :: (expandScan env scopes rest).1) =
              dollars (expandScan env scopes rest).1 := by
            unfold dollars
            simp [List.count_cons, hc]
          simp only [hd]
          omega
        · intro hf
          rw [heq] at hf ⊢
          have := ih'.2 hf
          simp [this]

theorem expandLoop_isSome (env : List (String × String)) (scopes : Scopes)
    (henv : ∀ p ∈ env, ('$' : Char) ∉ (p.2 : String).data)
    (hsc : ∀ fr ∈ scopes, ∀ p ∈ fr, ('$' : Char) ∉ (p.2 : String).data) :
    ∀ (fuel : Nat) (line : String), dollars line.data < fuel →
      (expandLoop env scopes fuel line).isSome := by
  intro fuel
  induction fuel with
  | zero =>
    intro line h
    exact absurd h (Nat.not_lt_zero _)
  | succ f ih =>
    intro line h
    rw [expandLoop]
    by_cases hf : (expandPass env scopes line).2 = true
    · rw [if_pos hf]
      apply ih
      have hspec := (expandScan_spec env scopes henv hsc line.data.length line.data
        (le_refl _)).1 hf
      have hdata : (expandPass env scopes line).1.data = (expandScan env scopes line.data).1 :=
        rfl
      rw [hdata]
      omega
    · rw [if_neg hf]
      rfl

/-- C3 counterexample: with the self-referential value `x ↦ "$x"`
(reachable from the surface syntax via the `$$` escape, e.g.
`var x $$x`), expanding the line `$x` never reaches a fixpoint: every pass
matches `$x` and substitutes it by itself, so no amount of passes
terminates the rescan loop — the code bounds nothing. -/
theorem expand_self_reference_diverges :
    ¬ ∃ fuel, (expandVariables [] [[("x", "$x")]] fuel "$x").isSome := by
  have hpass : expandPass [] [[("x", "$x")]] "$x" = ("$x", true) := by
    have h1 : tryTokM ['x'] = some ("x", []) := by decide
    have h3 : expandScan [] [[("x", "$x")]] [] = ([], false) := by
      rw [expandScan]
    have h2 : expandScan [] [[("x", "$x")]] ['$', 'x'] = (['$', 'x'], true) := by
      rw [expandScan]
      rw [if_pos rfl]
      split
      · rename_i a r hh
        rw [h1] at hh
        obtain ⟨ha, hr⟩ := Prod.mk.injEq .. |>.mp (Option.some_inj.mp hh)
        subst ha
        subst hr
        rw [h3]
        simp [lookupArg, strStarts, getVar, fget]
      · rename_i hh
        rw [h1] at hh
        cases hh
    unfold expandPass
    rw [show ("$x" : String).data = ['$', 'x'] from rfl, h2]
  have hloop : ∀ fuel, expandLoop [] [[("x", "$x")]] fuel "$x" = none := by
    intro fuel
    induction fuel with
    | zero => rfl
    | succ f ihf =>
      rw [expandLoop, hpass]
      simpa using ihf
  rintro ⟨fuel, hsome⟩
  unfold expandVariables at hsome
  rw [show (⟨protectDollars ("$x" : String).data⟩ : String) = "$x" from rfl] at hsome
  rw [hloop fuel] at hsome
  cases hsome

/-- C3 (amended): the rescan loop stops only when a pass finds no match
and the code does not bound the number of passes, so expansion does not
terminate for every scope content: a self-referential stored value makes
it loop forever.  It does terminate — within (number of `$` characters)+1
passes, never failing, with undefined variables expanding to the empty
string — whenever no stored scope value and no environment value contains
a `$` character. -/
theorem c3_expansion_terminates (env : List (String × String)) (scopes : Scopes) (line : String)
    (henv : ∀ p ∈ env, ('$' : Char) ∉ (p.2 : String).data)
    (hsc : ∀ fr ∈ scopes, ∀ p ∈ fr, ('$' : Char) ∉ (p.2 : String).data) :
    (expandVariables env scopes (dollars (protectDollars line.data) + 1) line).isSome := by
  unfold expandVariables
  have h := expandLoop_isSome env scopes henv hsc (dollars (protectDollars line.data) + 1)
    ⟨protectDollars line.data⟩ (Nat.lt_succ_self _)
  cases hl : expandLoop env scopes (dollars (protectDollars line.data) + 1)
      ⟨protectDollars line.data⟩ with
  | none => rw [hl] at h; cases h
  | some l => rfl

/-- Witness for C3: expanding `$a` with `a ↦ 1` terminates within the
bound. -/
theorem c3_witness : (expandVariables [] [[("a", "1")]]
    (dollars (protectDollars ("$a" : String).data) + 1) "$a").isSome :=
  c3_expansion_terminates [] [[("a", "1")]] "$a" (by simp)
    (by intro fr hfr p hp; simp at hfr; subst hfr; simp at hp; subst hp; simp)

/-! ### C9: the `go` command's concurrency barrier (`cmd.go:1223-1279`) -/

/-- The `go`-related interpreter state (`cmd.go`, fields of `Cmd`):
whether `waitGroup` is non-nil, `waitMax`, `waitCount`, and the number of
dispatches of the current wait group still running (`waitGroup.Add(1)`
minus `Done()`). -/
structure GoSt where
  barrier : Bool
  waitMax : Nat
  waitCount : Nat
  inflight : Nat
deriving DecidableEq

/-- Action labels for `command_go` steps (plus `finishL`, a dispatched
command completing). -/
inductive GoLab where
  | startL (n : Nat)
  | waitL
  | dispatchL
  | finishL
deriving DecidableEq

/-- Transitions of `command_go` (cmd.go:1223-1279) and of the dispatched
goroutines.  `go cmd` with a barrier and `waitCount < waitMax` (or
`waitMax = 0`) dispatches immediately (cmd.go:1262-1274); once
`waitCount >= waitMax > 0` the caller first executes `waitGroup.Wait()`
(cmd.go:1264-1266), so that dispatch step is enabled only when the whole
group has drained (`inflight = 0`), and it resets the count.  `go cmd`
with no barrier spawns an untracked goroutine (cmd.go:1260).  `go --start
n` installs a fresh group (cmd.go:1229-1239); `go --wait` with a barrier
waits for the whole group and clears it (cmd.go:1241-1250), and without
one only prints.  (The `go go...` easter-egg path dispatches nothing and
is omitted.) -/
inductive GoStep : GoSt → GoLab → GoSt → Prop where
  | dispatchFree (s : GoSt) (hb : s.barrier = true)
      (hc : s.waitMax = 0 ∨ s.waitCount < s.waitMax) :
      GoStep s .dispatchL ⟨true, s.waitMax, s.waitCount + 1, s.inflight + 1⟩
  | dispatchDrain (s : GoSt) (hb : s.barrier = true) (hm : 0 < s.waitMax)
      (hc : s.waitMax ≤ s.waitCount) (hi : s.inflight = 0) :
      GoStep s .dispatchL ⟨true, s.waitMax, 1, 1⟩
  | dispatchUntracked (s : GoSt) (hb : s.barrier = false) : GoStep s .dispatchL s
  | finishOne (s : GoSt) (hi : 0 < s.inflight) :
      GoStep s .finishL ⟨s.barrier, s.waitMax, s.waitCount, s.inflight - 1⟩
  | startNew (s : GoSt) (n : Nat) : GoStep s (.startL n) ⟨true, n, 0, 0⟩
  | waitAll (s : GoSt) (hb : s.barrier = true) (hi : s.inflight = 0) :
      GoStep s .waitL ⟨false, s.waitMax, s.waitCount, 0⟩
  | waitNone (s : GoSt) (hb : s.barrier = false) : GoStep s .waitL s

/-- Reachability under any sequence of `command_go` actions and
completions. -/
def GoReach (s s' : GoSt) : Prop :=
  Relation.ReflTransGen (fun a b => ∃ lab, GoStep a lab b) s s'

/-- Step invariant: running tracked dispatches never exceed the count
since the last reset, and with a positive bound the count never exceeds
it. -/
def GoInv (s : GoSt) : Prop :=
  s.inflight ≤ s.waitCount ∧ (0 < s.waitMax → s.waitCount ≤ s.waitMax)

theorem goStep_inv (s s' : GoSt) (lab : GoLab) (h : GoStep s lab s') (hi : GoInv s) :
    GoInv s' := by
  obtain ⟨h1, h2⟩ := hi
  cases h with
  | dispatchFree hb hc =>
    refine ⟨?_, fun hm => ?_⟩
    · show s.inflight + 1 ≤ s.waitCount + 1
      omega
    · show s.waitCount + 1 ≤ s.waitMax
      have hm' : 0 < s.waitMax := hm
      rcases hc with hc | hc <;> omega
  | dispatchDrain hb hm hc hif => exact ⟨Nat.le_refl 1, fun _ => hm⟩
  | dispatchUntracked hb => exact ⟨h1, h2⟩
  | finishOne hif =>
    refine ⟨?_, fun hm => ?_⟩
    · show s.inflight - 1 ≤ s.waitCount
      omega
    · have hm' : 0 < s.waitMax := hm
      show s.waitCount ≤ s.waitMax
      exact h2 hm'
  | startNew n => exact ⟨Nat.le_refl 0, fun _ => Nat.zero_le _⟩
  | waitAll hb hif =>
    refine ⟨Nat.zero_le _, fun hm => ?_⟩
    have hm' : 0 < s.waitMax := hm
    show s.waitCount ≤ s.waitMax
    exact h2 hm'
  | waitNone hb => exact ⟨h1, h2⟩

theorem goReach_inv (s s' : GoSt) (h : GoReach s s') (hi : GoInv s) : GoInv s' := by
  induction h with
  | refl => exact hi
  | tail hab hbc ih =>
    obtain ⟨lab, hstep⟩ := hbc
    exact goStep_inv _ _ lab hstep ih

/-- C9 counterexample: with `go --start 2`, after two dispatches fill the
window and ONE of them finishes, a third bare `go cmd` is still not
admitted — no dispatch transition exists from that state, because the
code's admission gate is `waitGroup.Wait()`, which drains the whole
group, not a single completion. -/
theorem go_not_admitted_after_one_finish :
    GoReach ⟨true, 2, 0, 0⟩ ⟨true, 2, 2, 1⟩ ∧
    ¬ ∃ s', GoStep ⟨true, 2, 2, 1⟩ .dispatchL s' := by
  constructor
  · have h1 : GoStep ⟨true, 2, 0, 0⟩ .dispatchL ⟨true, 2, 1, 1⟩ :=
      GoStep.dispatchFree ⟨true, 2, 0, 0⟩ rfl (Or.inr (by decide))
    have h2 : GoStep ⟨true, 2, 1, 1⟩ .dispatchL ⟨true, 2, 2, 2⟩ :=
      GoStep.dispatchFree ⟨true, 2, 1, 1⟩ rfl (Or.inr (by decide))
    have h3 : GoStep ⟨true, 2, 2, 2⟩ .finishL ⟨true, 2, 2, 1⟩ :=
      GoStep.finishOne ⟨true, 2, 2, 2⟩ (by decide)
    exact Relation.ReflTransGen.tail
      (Relation.ReflTransGen.tail
        (Relation.ReflTransGen.tail Relation.ReflTransGen.refl ⟨_, h1⟩) ⟨_, h2⟩)
      ⟨_, h3⟩
  · rintro ⟨s', h⟩
    cases h with
    | dispatchFree hb hc => rcases hc with hc | hc <;> simp at hc
    | dispatchDrain hb hm hc hi => simp at hi
    | dispatchUntracked hb => simp at hb

/-- C9 (amended): with a barrier installed by `go --start N`, at most
`waitMax` tracked dispatches are ever in flight (this part of the claim
holds), and `go --wait` indeed completes only with the group drained and
clears the barrier; but a bare `go cmd` arriving with the window full
(`waitCount >= waitMax > 0`) is NOT admitted as soon as one dispatch
finishes: its dispatch step is enabled only once the whole group has
drained (`inflight = 0`), after which the count is reset — batch
semantics, not a sliding window. -/
theorem c9_go_barrier (N : Nat) :
    (∀ s, GoReach ⟨true, N, 0, 0⟩ s → 0 < s.waitMax → s.inflight ≤ s.waitMax) ∧
    (∀ s s', GoStep s .dispatchL s' → s.barrier = true → 0 < s.waitMax →
      s.waitMax ≤ s.waitCount → s.inflight = 0) ∧
    (∀ s s', GoStep s .waitL s' → s'.barrier = false ∧
      (s.barrier = true → s.inflight = 0)) := by
  refine ⟨?_, ?_, ?_⟩
  · intro s hreach hm
    have hinv := goReach_inv _ _ hreach ⟨Nat.le_refl 0, fun _ => Nat.zero_le _⟩
    obtain ⟨h1, h2⟩ := hinv
    exact le_trans h1 (h2 hm)
  · intro s s' h hb hm hc
    cases h with
    | dispatchFree hb' hc' => rcases hc' with h0 | h0 <;> omega
    | dispatchDrain hb' hm' hc' hi => exact hi
    | dispatchUntracked hb' => rw [hb'] at hb; cases hb
  · intro s s' h
    cases h with
    | waitAll hb hi => exact ⟨rfl, fun _ => hi⟩
    | waitNone hb => exact ⟨hb, fun hb' => by rw [hb'] at hb; cases hb⟩

/-- Witness for C9: concrete instances of all three conjuncts at `N = 2`:
the reachable state after two dispatches and one completion respects the
bound, its blocked dispatch requires a drained group, and a `--wait` step
from a drained group clears the barrier. -/
theorem c9_witness :
    (⟨true, 2, 2, 1⟩ : GoSt).inflight ≤ (⟨true, 2, 2, 1⟩ : GoSt).waitMax ∧
    (⟨true, 2, 2, 0⟩ : GoSt).inflight = 0 ∧
    (⟨false, 2, 2, 0⟩ : GoSt).barrier = false := by
  refine ⟨?_, ?_, ?_⟩
  · have h1 : GoStep ⟨true, 2, 0, 0⟩ .dispatchL ⟨true, 2, 1, 1⟩ :=
      GoStep.dispatchFree ⟨true, 2, 0, 0⟩ rfl (Or.inr (by decide))
    have h2 : GoStep ⟨true, 2, 1, 1⟩ .dispatchL ⟨true, 2, 2, 2⟩ :=
      GoStep.dispatchFree ⟨true, 2, 1, 1⟩ rfl (Or.inr (by decide))
    have h3 : GoStep ⟨true, 2, 2, 2⟩ .finishL ⟨true, 2, 2, 1⟩ :=
      GoStep.finishOne ⟨true, 2, 2, 2⟩ (by decide)
    have hreach : GoReach ⟨true, 2, 0, 0⟩ ⟨true, 2, 2, 1⟩ :=
      Relation.ReflTransGen.tail
        (Relation.ReflTransGen.tail
          (Relation.ReflTransGen.tail Relation.ReflTransGen.refl ⟨_, h1⟩) ⟨_, h2⟩)
        ⟨_, h3⟩
    exact (c9_go_barrier 2).1 ⟨true, 2, 2, 1⟩ hreach (by decide)
  · exact (c9_go_barrier 2).2.1 ⟨true, 2, 2, 0⟩ ⟨true, 2, 1, 1⟩
      (GoStep.dispatchDrain ⟨true, 2, 2, 0⟩ rfl (by decide) (by decide) rfl) rfl (by decide)
      (by decide)
  · exact ((c9_go_barrier 2).2.2 ⟨true, 2, 2, 0⟩ ⟨false, 2, 2, 0⟩
      (GoStep.waitAll ⟨true, 2, 2, 0⟩ rfl rfl)).1

/-- C2: for an `if` command whose predicate evaluates without error,
(1) the command is exactly a `RunBlock` of the selected block — the true
block when the (optionally negated) predicate holds, else the false block —
with `newscope = false`, so exactly one of the two read blocks executes and
nothing else; (2) that `RunBlock` neither pushes nor pops a scope frame
(the frame count is preserved); and (3) when the taken branch is a single
`var x v` command, the variable is bound in the enclosing scope when the
`if` completes, at unchanged stack depth. -/
theorem c2_conditional_runs_one_block (f : Nat) (scopes : Scopes) (line : String)
    (rest : List String) (cond bdy : String) (b : Bool) (blk1 : List String)
    (oblk2 : Option (List String)) (rest' : List String)
    (hneg : parseNeg line = (false, line))
    (hne : line.data.length ≠ 0)
    (hsplit : getArgsN2 line = [cond, bdy])
    (heval : evalConditional cond = .ok b)
    (hblock : readBlock bdy "else" rest = .ok (blk1, oblk2, rest')) :
    (cmdConditionalM (f + 1) scopes line rest =
      (runBlockM f scopes "" (if b then blk1 else oblk2.getD []) none false).map
        (fun pr => (pr.1, pr.2, rest'))) ∧
    (∀ s stop, runBlockM f scopes "" (if b then blk1 else oblk2.getD []) none false
        = some (s, stop) → s.length = scopes.length) ∧
    (∀ (k : Nat) (vline params x v : String), scopes ≠ [] →
      (if b then blk1 else oblk2.getD []) = [vline] →
      trimS vline = vline → strEnds vline "\\" = false →
      strStarts vline "#" = false → vline ≠ "" →
      splitN2 vline = ("var", params) → strStarts params "-" = false →
      getArgsN2 params = [x, v] →
      ∃ s, runBlockM (k + 3) scopes "" (if b then blk1 else oblk2.getD []) none false
          = some (s, false) ∧ getVar s x = some v ∧ s.length = scopes.length) := by
  refine ⟨?_, ?_, ?_⟩
  · have hne' : ¬ line.length = 0 := hne
    cases hrb : runBlockM f scopes "" (if b then blk1 else oblk2.getD []) none false with
    | none =>
      simp [cmdConditionalM, hneg, hne, hne', hsplit, heval, hblock, hrb]
    | some pr =>
      obtain ⟨s', st⟩ := pr
      simp [cmdConditionalM, hneg, hne, hne', hsplit, heval, hblock, hrb]
  · intro s stop h
    exact (interpPreserve f).2.2.2 scopes "" _ none false s stop h
  · intro k vline params x v hne0 hchosen hl hc hcm hnev hsp hopt hargs
    have hconcat : ∃ l fr, scopes = l ++ [fr] := by
      rcases List.eq_nil_or_concat scopes with hnil | ⟨L, g, hcc⟩
      · exact absurd hnil hne0
      · exact ⟨L, g, by simpa [List.concat_eq_append] using hcc⟩
    obtain ⟨l, fr, rfl⟩ := hconcat
    have hsv := setVar_local l fr x v
    have horun : oneCmdM (k + 1) (l ++ [fr]) vline [] = some (l ++ [fset fr x v], false, []) := by
      simp [oneCmdM, hsp, cmdVariable, hopt, hargs, hsv]
    have hloop2 : runLoopM (k + 1) (l ++ [fset fr x v]) [] = some (l ++ [fset fr x v], false) :=
      rfl
    have hro : runLoopM (k + 2) (l ++ [fr]) [vline] = some (l ++ [fset fr x v], false) := by
      rw [show k + 2 = (k + 1) + 1 from rfl, runLoopM]
      rw [readLine_plain vline [] hl hc]
      simp [hcm, hnev, horun, hloop2]
    refine ⟨l ++ [fset fr x v], ?_, ?_, by simp⟩
    · rw [hchosen]
      rw [show k + 3 = (k + 2) + 1 from rfl, runBlockM]
      simp [hro]
    · rw [getVar_concat]
      rw [fget_fset_self]

/-- Witness for C2: `if (eq a a) var y 1` on a single-frame stack runs
exactly the one-line true block and leaves `y = 1` bound at unchanged
stack depth. -/
theorem c2_witness :
    cmdConditionalM 4 [[]] "(eq a a) var y 1" [] =
      (runBlockM 3 [[]] "" ["var y 1"] none false).map (fun pr => (pr.1, pr.2, ([] : List String))) ∧
    ∃ s, runBlockM 3 [[]] "" ["var y 1"] none false = some (s, false) ∧
      getVar s "y" = some "1" ∧ s.length = 1 := by
  have h := c2_conditional_runs_one_block 3 [[]] "(eq a a) var y 1" [] "(eq a a)" "var y 1"
    true ["var y 1"] none [] (by decide) (by decide) (by decide) (by decide) (by decide)
  constructor
  · simpa using h.1
  · have h3 := h.2.2 0 "var y 1" "y 1" "y" "1" (by simp) (by decide) (by decide) (by decide)
      (by decide) (by decide) (by decide) (by decide) (by decide)
    simpa using h3

/-- C4 counterexample: `readBlock` with header `{` over a blank line, a
comment line and `echo 1` returns the blank and comment lines inside the
block: the loop appends them (internal.go:479-481) rather than dropping
them, contradicting the claim that they do not occur in the returned
block. -/
theorem readBlock_keeps_blank_and_comment :
    readBlock "\x7b" "else" ["", "# note", "echo 1", "\x7d"] =
      .ok (["", "# note", "echo 1"], none, []) := by
  have h1 : readBlockLoop 1 [] ["", "# note", "echo 1", "\x7d"] =
      .ok (["", "# note", "echo 1"], "\x7d", []) := by
    rw [readBlockLoop_cons 1 [] "" _ (by decide) (by decide)]
    rw [if_pos (Or.inr rfl)]
    simp only [List.nil_append]
    rw [readBlockLoop_cons 1 [""] "# note" _ (by decide) (by decide)]
    rw [if_pos (Or.inl (by decide))]
    simp only [show ([""] ++ ["# note"] : List String) = ["", "# note"] from rfl]
    rw [readBlockLoop_cons 1 ["", "# note"] "echo 1" _ (by decide) (by decide)]
    rw [if_neg (by decide), if_neg (by decide)]
    simp only [show (strStarts "echo 1" "\x7d") = false from by decide,
      show (strEnds "echo 1" "\x7b") = false from by decide,
      show (["", "# note"] ++ ["echo 1"] : List String) = ["", "# note", "echo 1"] from rfl]
    simpa using readBlockLoop_close ["", "# note", "echo 1"] []
  rw [readBlock]
  simp only [show (strEnds "\x7b" "\x7b") = true from by decide]
  rw [if_neg (by simp)]
  rw [if_neg (by simp)]
  rw [h1]
  simp [dropPreOnce, trimS, strStarts]

/-- C4 (amended): `readBlock` with header `{` collects every logical line
read before the brace depth returns to zero, including blank lines and `#`
comment lines, which are kept in the returned block (they are skipped at
execution time, not at read time).  The claimed concrete example still
holds: on `echo 1` then `}` it returns the single block `["echo 1"]` and no
second block. -/
theorem c4_readBlock_collects_all (pre rest : List String) (nxt : String)
    (hp : ∀ l ∈ pre, trimS l = l ∧ strEnds l "\\" = false ∧
      (strStarts l "#" = true ∨ l = "" ∨
        (strStarts l "\x7d" = false ∧ strEnds l "\x7b" = false))) :
    readBlock "\x7b" nxt (pre ++ "\x7d" :: rest) = .ok (pre, none, rest) := by
  rw [readBlock]
  simp only [show (strEnds "\x7b" "\x7b") = true from by decide]
  rw [if_neg (by simp)]
  rw [if_neg (by simp)]
  rw [readBlockLoop_collects pre [] rest hp]
  simp [dropPreOnce, trimS, strStarts]

/-- Witness for C4: the spec's own example, one block `["echo 1"]` and no
second block. -/
theorem c4_witness : readBlock "\x7b" "else" (["echo 1"] ++ "\x7d" :: []) = .ok (["echo 1"], none, []) :=
  c4_readBlock_collects_all ["echo 1"] [] "else" (by
    intro l hl
    simp at hl
    subst hl
    refine ⟨by decide, by decide, Or.inr (Or.inr ⟨by decide, by decide⟩)⟩)

/-- The frame used by the C7 witness. -/
def c7Frame : Frame := [("0", "f"), ("1", "a"), ("2", "b"), ("*", "a b"), ("#", "2")]

/-- The positional values of `c7Frame` as a function. -/
def c7Vals : Nat → String := fun j => if j = 1 then "a" else "b"

theorem c7Frame_high (j : Nat) (hj : 2 < j) : fget c7Frame (itoa j) = none := by
  have h0 : ("0" : String) ≠ itoa j := Ne.symm (itoa_ne j 0 (by omega))
  have h1 : ("1" : String) ≠ itoa j := Ne.symm (itoa_ne j 1 (by omega))
  have h2 : ("2" : String) ≠ itoa j := Ne.symm (itoa_ne j 2 (by omega))
  have hs : ("*" : String) ≠ itoa j := Ne.symm (itoa_ne_star j)
  have hh : ("#" : String) ≠ itoa j := Ne.symm (itoa_ne_hash j)
  simp [c7Frame, fget, h0, h1, h2, hs, hh]

/-- Witness for C7: the amended theorem applied to the concrete frame
$1=a, $2=b with n = 1 (shift) and n = 5 (out of range). -/
theorem c7_witness :
    fget (shiftArgs c7Frame 1) "#" = some "1" ∧
    fget (shiftArgs c7Frame 1) "*" = some "b" ∧
    fget (shiftArgs c7Frame 1) "1" = some "b" ∧
    fget (shiftArgs c7Frame 1) "2" = some "b" ∧
    shiftArgs c7Frame 5 = c7Frame := by
  have hH : fget c7Frame "#" = some (itoa 2) := by decide
  have hPos : ∀ j, 1 ≤ j → j ≤ 2 → fget c7Frame (itoa j) = some (c7Vals j) := by
    intro j hj1 hj2
    interval_cases j <;> decide
  have h := c7_shiftArgs c7Frame c7Vals 2 1 hH hPos c7Frame_high
  have h5 := c7_shiftArgs c7Frame c7Vals 2 5 hH hPos c7Frame_high
  obtain ⟨k1, k2, k3, k4, k5, k6⟩ := h.2 (by omega) (by omega)
  refine ⟨?_, ?_, ?_, ?_, h5.1 (by omega)⟩
  · simpa using k1
  · simpa [joinSp, c7Vals] using k2
  · simpa [c7Vals] using k3 1 (by omega) (by omega)
  · simpa [c7Vals] using k5

/-- Witness for C10 at concrete inputs. -/
theorem c10_witness :
    (∃ s, pushScope [] none [[]] = some s ∧
      ∃ fr, s = [[]] ++ [fr] ∧ fget fr "*" = none ∧ fget fr "#" = none ∧
        ∀ n, fget fr (itoa n) = none) ∧
    pushScope [] (some []) [[]] = none ∧
    (∀ a rest, (pushScope [] (some (a :: rest)) [[]]).isSome) := by
  refine c10_pushScope_totality [] [[]] ?_ ?_ ?_ <;> simp

end GobsCmd
